import Mathlib

/-!
Verification development for `robinhood_capital_gains_estimator.py`.

The source program tracks, per instrument, a doubly-linked chain of purchase
lots (`Lot` objects with `prev_lot` / `next_lot` references), a root (oldest)
and head (newest) reference, and a running current quantity.  We embed the
heap of `Lot` objects as an index-addressed arena (`List Lot`), pointers as
`Option Nat` indices, and the three transaction handlers of `import_file`
(`Buy`-like, `Sell`, `SPL`) as functions on that state.

Python `Decimal` arithmetic: addition, subtraction and multiplication are
exact in Python's default 28-significant-digit context for all quantities the
program handles, so lot quantities and prices are modelled as exact rationals
(`ℚ`).  Where the *representation* of a `Decimal` matters — the split-ratio
computation, whose result is fed to `count_decimal_places(str(...))` — we
model a `Decimal` faithfully as a coefficient/exponent pair (`Dec`) with
division following Python's `decimal` module (ideal-exponent exact results,
half-even rounding to 28 significant digits otherwise).

Uncaught Python exceptions (`KeyError` on a missing instrument,
`AttributeError` on following a `None` pointer, `DivisionByZero` /
`InvalidOperation` from `Decimal` division) are modelled as error results.
-/

/-- Errors raised by the modelled code paths.  `modelStuck` is an artifact of
the fueled, index-addressed embedding: it is returned on fuel exhaustion or a
dangling arena index, neither of which occurs for states produced by the
operations (the well-formedness lemmas below rule both out). -/
inductive PyErr : Type where
  | keyError : PyErr
  | attributeError : PyErr
  | typeError : PyErr
  | divisionByZero : PyErr
  | invalidOperation : PyErr
  | modelStuck : PyErr
deriving Repr, DecidableEq

/-- Count how many times `p` divides `n` (with explicit fuel; `fuel = n`
always suffices since `p ≥ 2` divisions reach `0` or a non-multiple). -/
def divCount (p : ℕ) : ℕ → ℕ → ℕ
  | 0, _ => 0
  | fuel + 1, n => if n ≠ 0 ∧ n % p = 0 then divCount p fuel (n / p) + 1 else 0

/-- Number of base-10 digits of a natural number (`0` has one digit). -/
def digitCount (n : ℕ) : ℕ :=
  if n = 0 then 1 else Nat.log 10 n + 1

/-- Round a rational to the nearest integer, ties to the even integer: the
rounding mode (`ROUND_HALF_EVEN`) of Python's default `Decimal` context. -/
def roundHalfEven (x : ℚ) : ℤ :=
  let n : ℤ := ⌊x⌋
  let f : ℚ := x - (n : ℚ)
  if f < 1/2 then n
  else if (1:ℚ)/2 < f then n + 1
  else if Even n then n else n + 1

/-- A Python `Decimal` value: coefficient `c` and exponent `e`, denoting
`c * 10 ^ e`.  The pair (not just the value) matters, because `str()` of a
`Decimal` — and hence the source's `count_decimal_places` — exposes the
exponent. -/
structure Dec : Type where
  c : ℤ
  e : ℤ
deriving Repr, DecidableEq

/-- The exact rational value of a `Decimal`. -/
def Dec.toRat (d : Dec) : ℚ := (d.c : ℚ) * (10 : ℚ) ^ d.e

/-- The `Decimal` zero that initializes `current_quantities[instrument]`
(Python's `int` literal `0`, exactly absorbed by later `Decimal` arithmetic). -/
def dec0 : Dec := ⟨0, 0⟩

/-- Python `Decimal` addition (exact; the default 28-digit context never
rounds it for the magnitudes this program handles): align exponents, add
coefficients. -/
def decAdd (a b : Dec) : Dec :=
  let m : ℤ := min a.e b.e
  ⟨a.c * 10 ^ (a.e - m).toNat + b.c * 10 ^ (b.e - m).toNat, m⟩

/-- Python `Decimal` subtraction (exact, as for addition). -/
def decSub (a b : Dec) : Dec := decAdd a ⟨-b.c, b.e⟩

/-- Python `Decimal` multiplication (exact, as for addition). -/
def decMul (a b : Dec) : Dec := ⟨a.c * b.c, a.e + b.e⟩

/-- Round a nonzero rational to 28 significant digits, half-even — the
inexact case of Python `Decimal` division under the default context.  The
result exponent is `adjusted - 27`; a carry out of the 28th digit (rounding
`99…9.6` up) bumps the exponent. -/
def decRound28 (v : ℚ) : Dec :=
  let adj : ℤ := Int.log 10 |v|
  let e : ℤ := adj - 27
  let c : ℤ := roundHalfEven (v * (10 : ℚ) ^ (-e))
  if c.natAbs = 10 ^ 28 then ⟨c / 10, e + 1⟩ else ⟨c, e⟩

/-- Python `Decimal` division (`a / b`, default context).  The ideal exponent
is `a.e - b.e`; an exact quotient is expressed with the exponent as close to
the ideal exponent as its digits allow (padding with trailing zeros toward
the ideal exponent, within the 28-digit precision); an inexact quotient is
rounded half-even to 28 significant digits.  Only called with `b.c ≠ 0` (the
caller raises `DivisionByZero` / `InvalidOperation` first, as Python does). -/
def decDiv (a b : Dec) : Dec :=
  let ideal : ℤ := a.e - b.e
  if a.c = 0 then ⟨0, ideal⟩
  else
    let v : ℚ := a.toRat / b.toRat
    let den : ℕ := v.den
    let a2 : ℕ := divCount 2 den den
    let a5 : ℕ := divCount 5 den den
    if 2 ^ a2 * 5 ^ a5 = den then
      -- finite decimal expansion: v * 10 ^ k is an integer, k = max a2 a5
      let k : ℕ := max a2 a5
      let N : ℤ := v.num * 10 ^ k / (den : ℤ)
      let t : ℕ := divCount 10 N.natAbs N.natAbs
      let eRed : ℤ := (t : ℤ) - k
      let cRed : ℤ := N / 10 ^ t
      let dg : ℕ := digitCount cRed.natAbs
      if dg ≤ 28 then
        let eStar : ℤ := max (min eRed ideal) (eRed - ((28 : ℤ) - dg))
        ⟨cRed * 10 ^ (eRed - eStar).toNat, eStar⟩
      else decRound28 v
    else decRound28 v

/-- The source's `count_decimal_places(num)`: the length of the part of
`str(num)` after the last `'.'` (and `0` when there is no `'.'`).  For a
`Decimal` in plain notation (`exponent ≤ 0` and adjusted exponent `≥ -6`)
this is `-exponent`; the remaining branches transcribe Python's
scientific-notation string format (`d.dddE±k`). -/
def count_decimal_places (d : Dec) : ℕ :=
  let dg : ℕ := digitCount d.c.natAbs
  let adj : ℤ := (dg : ℤ) - 1 + d.e
  if d.e ≤ 0 ∧ -6 ≤ adj then (-d.e).toNat
  else if dg = 1 then 0
  else (dg - 1) + 2 + digitCount adj.natAbs

/-- The split ratio the source computes on line 125:
`(current_quantities[instrument] + transaction_quantity) / current_quantities[instrument]`. -/
def computedRatio (cq q : Dec) : Dec := decDiv (decAdd cq q) cq

/-- The split ratio actually used for rescaling: the operator-supplied
override `o` exactly when the computed ratio has more than one decimal digit
(source lines 127–130), the computed ratio otherwise. -/
def settledRatio (cq q o : Dec) : Dec :=
  if 1 < count_decimal_places (computedRatio cq q) then o else computedRatio cq q

/-- The exact rational value of the binary64 float literal `0.005` appearing
in `cur_str` (`abs(num) < 0.005` compares a `Decimal` against a `float`;
Python compares the exact values, and the nearest binary64 to `1/200` is
slightly above it). -/
def floatOfPointZeroZeroFive : ℚ := 5764607523034235 / 2 ^ 60

/-- Round a rational to cents, half-even: Python's `round(x, 2)` on a
`Decimal`. -/
def roundCents (x : ℚ) : ℚ := (roundHalfEven (100 * x) : ℚ) / 100

/-- Render a number of cents the way `f'{num:.2f}'` renders the rounded
value. -/
def centsToString (n : ℤ) : String :=
  (if n < 0 then "-" else "") ++ toString (n.natAbs / 100) ++ "." ++
    (if n.natAbs % 100 < 10 then "0" else "") ++ toString (n.natAbs % 100)

/-- The source's `cur_str`: blank when `abs(num) < 0.005` (the float!), else
the value formatted to two decimal places (half-even, as Python formats a
`Decimal`). -/
def cur_str (x : ℚ) : String :=
  if |x| < floatOfPointZeroZeroFive then "" else centsToString (roundHalfEven (100 * x))

/-- The pure data of a lot, without the chain links: purchase date (as a day
number), purchase price, remaining quantity, and the optional sale date and
price (both `None` while the lot is open, both set when it is closed). -/
structure LotRec : Type where
  purchase_date : ℤ
  purchase_price : ℚ
  quantity : ℚ
  sell_date : Option ℤ
  sell_price : Option ℚ
deriving Repr, DecidableEq

/-- A `Lot` object of the source: its data plus the two chain references,
modelled as indices into the per-instrument arena. -/
structure Lot : Type where
  purchase_date : ℤ
  purchase_price : ℚ
  quantity : ℚ
  sell_date : Option ℤ
  sell_price : Option ℚ
  prev_lot : Option ℕ
  next_lot : Option ℕ
deriving Repr, DecidableEq

/-- The link-free data of a lot. -/
def Lot.toLotRec (l : Lot) : LotRec :=
  { purchase_date := l.purchase_date, purchase_price := l.purchase_price,
    quantity := l.quantity, sell_date := l.sell_date, sell_price := l.sell_price }

instance : Inhabited Lot :=
  ⟨{ purchase_date := 0, purchase_price := 0, quantity := 0, sell_date := none,
     sell_price := none, prev_lot := none, next_lot := none }⟩

/-- Arena lookup (total; indices are always in range for well-formed states). -/
def getL (lots : List Lot) (i : ℕ) : Lot := lots.getD i default

/-- Per-instrument state: the arena of all `Lot` objects ever created for the
instrument, the indices playing the role of `lot_roots[instrument]` and
`lot_heads[instrument]`, and `current_quantities[instrument]`. -/
structure InstrState : Type where
  lots : List Lot
  root : ℕ
  head : ℕ
  cq : Dec
deriving Repr, DecidableEq

/-- The state of one instrument's entry in the global dictionaries: `none`
when the instrument has never been acquired (all three dictionaries are
populated together, on the first acquisition). -/
def LState : Type := Option InstrState

instance : DecidableEq LState := inferInstanceAs (DecidableEq (Option InstrState))

instance {e a : Type} [DecidableEq e] [DecidableEq a] : DecidableEq (Except e a)
  | .error x, .error y =>
    if h : x = y then .isTrue (by rw [h]) else .isFalse (by intro hc; cases hc; exact h rfl)
  | .error _, .ok _ => .isFalse (by intro h; cases h)
  | .ok _, .error _ => .isFalse (by intro h; cases h)
  | .ok x, .ok y =>
    if h : x = y then .isTrue (by rw [h]) else .isFalse (by intro hc; cases hc; exact h rfl)

/-- Sum of the quantities of the open (unsold) lots in an arena. -/
def sumOpen (lots : List Lot) : ℚ :=
  (lots.map fun l => if l.sell_date = none then l.quantity else 0).sum

/-- The acquisition handler (source lines 86–96, `Buy`/`CONV`/`SXCH`/`MRGS`):
create a lot whose `prev_lot` is the current head, make the old head's
`next_lot` point at it, make it the head (and the root, with the running
quantity initialized to `0`, if the instrument is new), and add the quantity
to the running quantity. -/
def acquireOp (pd : ℤ) (pp : ℚ) (q : Dec) (s : LState) : LState :=
  match s with
  | none =>
      some { lots := [{ purchase_date := pd, purchase_price := pp, quantity := q.toRat,
                        sell_date := none, sell_price := none, prev_lot := none,
                        next_lot := none }],
             root := 0, head := 0, cq := decAdd dec0 q }
  | some st =>
      let idx := st.lots.length
      let newLot : Lot := { purchase_date := pd, purchase_price := pp, quantity := q.toRat,
                            sell_date := none, sell_price := none,
                            prev_lot := some st.head, next_lot := none }
      let lots' := (st.lots.set st.head { getL st.lots st.head with next_lot := some idx }) ++ [newLot]
      some { lots := lots', root := st.root, head := idx, cq := decAdd st.cq q }

/-- Close a lot with this disposal's date and price (source lines 106–107). -/
def closeL (d : ℤ) (p : ℚ) (l : Lot) : Lot :=
  { l with sell_date := some d, sell_price := some p }

/-- The relinking after a partial-sale split (source lines 117–120): if the
new front lot has a `prev_lot`, that lot's `next_lot` is pointed at the new
front lot; otherwise the original was the root, and the new front lot becomes
the root. -/
def relinkAfterSplit (root : ℕ) (lots1 : List Lot) (newIdx : ℕ) :
    Option ℕ → Except PyErr (List Lot × ℕ)
  | some j => .ok (lots1.set j { getL lots1 j with next_lot := some newIdx }, root)
  | none => .ok (lots1, newIdx)

/-- The FIFO disposal loop of the `Sell` handler (source lines 100–120),
walking from the root via `next_lot`: skip closed lots; close an open lot
whole when its quantity is at most the amount still to distribute; otherwise
split it — a new lot holding the remaining amount, with the original's
purchase data, takes the original's place in the chain (`Lot.split`, lines
33–39, with the original's just-set sale fields copied to the front lot and
reset to `None` on the original, then the relinking of lines 117–120).
Walking past the last lot with quantity still to distribute is Python's
`None.sell_date` `AttributeError`. -/
def disposeWalk (d : ℤ) (p : ℚ) :
    ℕ → List Lot → ℕ → Option ℕ → ℚ → Except PyErr (List Lot × ℕ)
  | 0, _, _, _, _ => .error .modelStuck
  | _ + 1, lots, root, none, q =>
    if q ≤ 0 then .ok (lots, root) else .error .attributeError
  | fuel + 1, lots, root, some i, q =>
    if q ≤ 0 then .ok (lots, root)
    else if i < lots.length then
      if (getL lots i).sell_date.isSome then
        disposeWalk d p fuel lots root (getL lots i).next_lot q
      else if (getL lots i).quantity ≤ q then
        disposeWalk d p fuel (lots.set i (closeL d p (getL lots i))) root
          (getL lots i).next_lot (q - (getL lots i).quantity)
      else
        relinkAfterSplit root
          (lots.set i
            { getL lots i with
              quantity := (getL lots i).quantity - q,
              prev_lot := some lots.length } ++
            [{ closeL d p (getL lots i) with quantity := q, next_lot := some i }])
          lots.length (getL lots i).prev_lot
    else .error .modelStuck

/-- The `Sell` handler (source lines 98–121): `lot_roots[instrument]` raises
`KeyError` for an unknown instrument; otherwise run the FIFO walk from the
root and subtract the transaction quantity from the running quantity. -/
def disposeOp (d : ℤ) (p : ℚ) (q : Dec) (s : LState) : Except PyErr LState :=
  match s with
  | none => .error .keyError
  | some st =>
    match disposeWalk d p (st.lots.length + 1) st.lots st.root (some st.root) q.toRat with
    | .error e => .error e
    | .ok (lots', root') =>
        .ok (some { lots := lots', root := root', head := st.head, cq := decSub st.cq q })

/-- Rescale an open lot (with its links) by the split ratio
(`purchase_price /= split_ratio`, `quantity *= split_ratio`). -/
def scaleLot (r : ℚ) (l : Lot) : Lot :=
  { l with purchase_price := l.purchase_price / r, quantity := l.quantity * r }

/-- The rescaling loop of the `SPL` handler (source lines 131–142), walking
from the head via `prev_lot`: divide each open lot's purchase price by the
ratio and multiply its quantity by the ratio; stop at the first closed lot or
at the root.  The `while True` loop's `break` at a lot with no `prev_lot` is
rendered as recursing on the `Option` cursor, with the `none` case returning
the arena (the same arena the loop's `break` leaves behind).  A zero ratio
makes `purchase_price /= split_ratio` raise `DivisionByZero`, as in Python. -/
def splitWalk (r : ℚ) : ℕ → List Lot → Option ℕ → Except PyErr (List Lot)
  | 0, _, _ => .error .modelStuck
  | _ + 1, lots, none => .ok lots
  | fuel + 1, lots, some i =>
    if i < lots.length then
      if (getL lots i).sell_date.isSome then .ok lots
      else if r = 0 then .error .divisionByZero
      else
        splitWalk r fuel (lots.set i (scaleLot r (getL lots i))) (getL lots i).prev_lot
    else .error .modelStuck

/-- The `SPL` handler (source lines 123–143): `current_quantities[instrument]`
raises `KeyError` for an unknown instrument; dividing by a zero running
quantity raises `DivisionByZero` (`InvalidOperation` when the dividend is
zero too); otherwise compute the ratio, replace it by the operator-supplied
override `o` when `count_decimal_places` flags it, rescale the unsold lots
from the head, and multiply the running quantity by the ratio. -/
def splitOp (q o : Dec) (s : LState) : Except PyErr LState :=
  match s with
  | none => .error .keyError
  | some st =>
    if st.cq.toRat = 0 then
      .error (if (decAdd st.cq q).toRat = 0 then .invalidOperation else .divisionByZero)
    else
      let ratio := settledRatio st.cq q o
      match splitWalk ratio.toRat (st.lots.length + 1) st.lots (some st.head) with
      | .error e => .error e
      | .ok lots' =>
          .ok (some { lots := lots', root := st.root, head := st.head,
                      cq := decMul st.cq ratio })

/-- The per-instrument gains walk of `main` (source lines 199–213), from the
head via `prev_lot` with the two running buckets: a closed lot whose sale
date is on or after the period start contributes
`(sell price - purchase price) * quantity` to the long-term bucket when held
strictly more than 365 days and to the short-term bucket otherwise; a closed
lot sold before the period start stops the walk; an open lot never does.  As
for `splitWalk`, the loop's `break` at a lot with no `prev_lot` is rendered
as recursing on the `Option` cursor.  A closed lot with no sale price would
be Python's `None - Decimal` `TypeError` (ruled out by `SellOk`). -/
def gainsWalk (start : ℤ) : ℕ → List Lot → Option ℕ → ℚ → ℚ → Except PyErr (ℚ × ℚ)
  | 0, _, _, _, _ => .error .modelStuck
  | _ + 1, _, none, gl, gs => .ok (gl, gs)
  | fuel + 1, lots, some i, gl, gs =>
    if i < lots.length then
      if (getL lots i).sell_date.isSome then
        if start ≤ (getL lots i).sell_date.getD 0 then
          if (getL lots i).sell_price.isSome then
            gainsWalk start fuel lots (getL lots i).prev_lot
              (if 365 < (getL lots i).sell_date.getD 0 - (getL lots i).purchase_date then
                gl + ((getL lots i).sell_price.getD 0 - (getL lots i).purchase_price) *
                  (getL lots i).quantity
              else gl)
              (if 365 < (getL lots i).sell_date.getD 0 - (getL lots i).purchase_date then gs
              else gs + ((getL lots i).sell_price.getD 0 - (getL lots i).purchase_price) *
                  (getL lots i).quantity)
          else .error .typeError
        else .ok (gl, gs)
      else gainsWalk start fuel lots (getL lots i).prev_lot gl gs
    else .error .modelStuck

/-- The totals of the `out_gains.csv` `Total` row (source lines 194–218):
fold over the instruments' states, adding `round(cap_gains_long, 2)` and
`round(cap_gains_short, 2)` — each instrument's walk result rounded to cents
— into the combined totals. -/
def reportTotals (start : ℤ) (sts : List InstrState) : Except PyErr (ℚ × ℚ) :=
  sts.foldlM
    (fun acc st =>
      match gainsWalk start (st.lots.length + 1) st.lots (some st.head) 0 0 with
      | .error e => .error e
      | .ok (gl, gs) => .ok (acc.1 + roundCents gl, acc.2 + roundCents gs))
    ((0 : ℚ), (0 : ℚ))

/-- Walk root-to-head via `next_lot`, collecting indices. -/
def walkNexts : ℕ → List Lot → Option ℕ → Except PyErr (List ℕ)
  | 0, _, _ => .error .modelStuck
  | _ + 1, _, none => .ok []
  | fuel + 1, lots, some i =>
    if i < lots.length then
      match walkNexts fuel lots (getL lots i).next_lot with
      | .error e => .error e
      | .ok is => .ok (i :: is)
    else .error .modelStuck

/-- Walk head-to-root via `prev_lot`, collecting indices. -/
def walkPrevs : ℕ → List Lot → Option ℕ → Except PyErr (List ℕ)
  | 0, _, _ => .error .modelStuck
  | _ + 1, _, none => .ok []
  | fuel + 1, lots, some i =>
    if i < lots.length then
      match walkPrevs fuel lots (getL lots i).prev_lot with
      | .error e => .error e
      | .ok is => .ok (i :: is)
    else .error .modelStuck

/-- One transaction of the chronological replay, as the Transaction Stream
Provider hands it to the ledger: an acquisition (`Buy`/`CONV`/`SXCH`/`MRGS`),
a disposal (`Sell`), or a split (`SPL`, with the operator's override answer
`o` injected, as the spec's design notes direct). -/
inductive Op : Type where
  | acquire (pd : ℤ) (pp : ℚ) (q : Dec) : Op
  | dispose (d : ℤ) (p : ℚ) (q : Dec) : Op
  | split (q o : Dec) : Op
deriving Repr, DecidableEq

/-- Apply one transaction to one instrument's state. -/
def stepOp (op : Op) (s : LState) : Except PyErr LState :=
  match op with
  | .acquire pd pp q => .ok (acquireOp pd pp q s)
  | .dispose d p q => disposeOp d p q s
  | .split q o => splitOp q o s

/-- Chronological replay of a transaction list against one instrument. -/
def replay : List Op → LState → Except PyErr LState
  | [], s => .ok s
  | op :: ops, s =>
    match stepOp op s with
    | .error e => .error e
    | .ok s' => replay ops s'

/-- Whether an `Op` is an acquisition or disposal (the operations claim C2
quantifies over). -/
def Op.isAcqOrDisp : Op → Prop
  | .acquire _ _ _ => True
  | .dispose _ _ _ => True
  | .split _ _ => False

instance : DecidablePred Op.isAcqOrDisp := fun op =>
  match op with
  | .acquire _ _ _ => .isTrue trivial
  | .dispose _ _ _ => .isTrue trivial
  | .split _ _ => .isFalse id

/-- Positive transaction quantity for acquisitions and disposals (the spec's
data model: quantity is "always > 0"). -/
def Op.posQty : Op → Prop
  | .acquire _ _ q => 0 < q.toRat
  | .dispose _ _ q => 0 < q.toRat
  | .split _ _ => True

instance : DecidablePred Op.posQty := fun op =>
  match op with
  | .acquire _ _ q => inferInstanceAs (Decidable (0 < q.toRat))
  | .dispose _ _ q => inferInstanceAs (Decidable (0 < q.toRat))
  | .split _ _ => .isTrue trivial

/-- The adjacency relation of the doubly-linked chain: `a`'s `next_lot` is
`b` and `b`'s `prev_lot` is `a`. -/
def Linked (lots : List Lot) (a b : ℕ) : Prop :=
  (getL lots a).next_lot = some b ∧ (getL lots b).prev_lot = some a

instance (lots : List Lot) : DecidableRel (Linked lots) := fun a b =>
  inferInstanceAs (Decidable ((getL lots a).next_lot = some b ∧ (getL lots b).prev_lot = some a))

/-- Well-formedness of an instrument's chain: `chain` lists the arena indices
root-first; it is duplicate-free, covers exactly the arena, starts at the
root (whose `prev_lot` is `None`), ends at the head (whose `next_lot` is
`None`), and consecutive entries are doubly linked. -/
def WF (lots : List Lot) (root head : ℕ) (chain : List ℕ) : Prop :=
  chain.Nodup ∧
  (∀ i ∈ chain, i < lots.length) ∧
  (∀ i < lots.length, i ∈ chain) ∧
  chain.head? = some root ∧
  chain.getLast? = some head ∧
  (getL lots root).prev_lot = none ∧
  (getL lots head).next_lot = none ∧
  List.Chain' (Linked lots) chain

instance chainLinkedDec (lots : List Lot) :
    (l : List ℕ) → Decidable (List.Chain' (Linked lots) l)
  | [] => .isTrue List.chain'_nil
  | [_] => .isTrue (List.chain'_singleton _)
  | a :: b :: rest =>
    haveI : Decidable (List.Chain' (Linked lots) (b :: rest)) := chainLinkedDec lots (b :: rest)
    decidable_of_iff (Linked lots a b ∧ List.Chain' (Linked lots) (b :: rest))
      List.chain'_cons.symm

instance (lots : List Lot) (root head : ℕ) (chain : List ℕ) :
    Decidable (WF lots root head chain) :=
  inferInstanceAs (Decidable (chain.Nodup ∧
    (∀ i ∈ chain, i < lots.length) ∧
    (∀ i < lots.length, i ∈ chain) ∧
    chain.head? = some root ∧
    chain.getLast? = some head ∧
    (getL lots root).prev_lot = none ∧
    (getL lots head).next_lot = none ∧
    List.Chain' (Linked lots) chain))

/-- Every lot of the arena has its sale date and sale price either both unset
or both set. -/
def SellOk (lots : List Lot) : Prop :=
  ∀ l ∈ lots, l.sell_date.isSome ↔ l.sell_price.isSome

instance (lots : List Lot) : Decidable (SellOk lots) :=
  inferInstanceAs (Decidable (∀ l ∈ lots, l.sell_date.isSome ↔ l.sell_price.isSome))

/-- Every lot of the arena has a positive (remaining) quantity. -/
def PosQ (lots : List Lot) : Prop := ∀ l ∈ lots, 0 < l.quantity

instance (lots : List Lot) : Decidable (PosQ lots) :=
  inferInstanceAs (Decidable (∀ l ∈ lots, 0 < l.quantity))

/-- The data of the lots along the chain, root-first. -/
def chainRecs (lots : List Lot) (chain : List ℕ) : List LotRec :=
  chain.map fun i => (getL lots i).toLotRec

/-- A lot record is open (unsold). -/
def openRec (l : LotRec) : Prop := l.sell_date = none

instance : DecidablePred openRec := fun l =>
  inferInstanceAs (Decidable (l.sell_date = none))

/-- The closed lots come before the open lots: once a lot is open, every
later lot is open too. -/
def closedBeforeOpen (ls : List LotRec) : Prop :=
  List.Pairwise (fun a b => a.sell_date = none → b.sell_date = none) ls

instance (ls : List LotRec) : Decidable (closedBeforeOpen ls) :=
  inferInstanceAs
    (Decidable (List.Pairwise (fun a b : LotRec => a.sell_date = none → b.sell_date = none) ls))

/-- Purchase dates are non-decreasing along the chain (chronological replay
appends acquisitions in date order). -/
def datesMono (ls : List LotRec) : Prop :=
  List.Pairwise (fun a b => a.purchase_date ≤ b.purchase_date) ls

instance (ls : List LotRec) : Decidable (datesMono ls) :=
  inferInstanceAs
    (Decidable (List.Pairwise (fun a b : LotRec => a.purchase_date ≤ b.purchase_date) ls))

/-- Sum of the open lots' quantities of a record list. -/
def sumOpenRecs (ls : List LotRec) : ℚ :=
  (ls.map fun l => if l.sell_date = none then l.quantity else 0).sum

/-- Close a lot record with this disposal's date and price. -/
def closeRec (d : ℤ) (p : ℚ) (l : LotRec) : LotRec :=
  { l with sell_date := some d, sell_price := some p }

/-- List-level rendering of the FIFO disposal over the open tail of a chain:
close whole lots while their quantity is at most the remaining amount; a lot
exceeding the remaining amount is replaced by a closed front piece holding
exactly the remaining amount (same purchase data) followed by the reduced,
still-open original. -/
def fifoClose (d : ℤ) (p : ℚ) : ℚ → List LotRec → List LotRec
  | _, [] => []
  | q, l :: rest =>
    if q ≤ 0 then l :: rest
    else if l.quantity ≤ q then closeRec d p l :: fifoClose d p (q - l.quantity) rest
    else { closeRec d p l with quantity := q } :: { l with quantity := l.quantity - q } :: rest

/-- List-level rendering of the whole FIFO walk (closed lots are skipped
unchanged); errors mirror the pointer-level walk. -/
def aWalk (d : ℤ) (p : ℚ) : ℚ → List LotRec → Except PyErr (List LotRec)
  | q, [] => if q ≤ 0 then .ok [] else .error .attributeError
  | q, l :: rest =>
    if q ≤ 0 then .ok (l :: rest)
    else if l.sell_date.isSome then
      match aWalk d p q rest with
      | .error e => .error e
      | .ok ls => .ok (l :: ls)
    else if l.quantity ≤ q then
      match aWalk d p (q - l.quantity) rest with
      | .error e => .error e
      | .ok ls => .ok (closeRec d p l :: ls)
    else
      .ok ({ closeRec d p l with quantity := q } :: { l with quantity := l.quantity - q } :: rest)

/-- Rescale an open lot by the split ratio: quantity multiplied, price
divided. -/
def scaleRec (r : ℚ) (l : LotRec) : LotRec :=
  { l with purchase_price := l.purchase_price / r, quantity := l.quantity * r }


/-- Whether a closed lot's sale date precedes the reporting-period start (the
gains walk's stopping condition). -/
def stopsGains (start : ℤ) (l : LotRec) : Prop :=
  ∃ sd, l.sell_date = some sd ∧ sd < start

instance (start : ℤ) : DecidablePred (stopsGains start) := fun l =>
  match h : l.sell_date with
  | none => .isFalse (by rintro ⟨sd, hsd, -⟩; rw [h] at hsd; cases hsd)
  | some sd =>
    if hs : sd < start then .isTrue ⟨sd, h, hs⟩
    else .isFalse (by
      rintro ⟨sd', hsd', hlt⟩
      rw [h] at hsd'
      cases hsd'
      exact hs hlt)

/-- The gain of one closed lot. -/
def lotGain (l : LotRec) : ℚ := (l.sell_price.getD 0 - l.purchase_price) * l.quantity

/-- Whether a lot was held strictly more than 365 days when sold. -/
def isLongTerm (l : LotRec) : Prop := 365 < l.sell_date.getD 0 - l.purchase_date

instance : DecidablePred isLongTerm := fun l =>
  inferInstanceAs (Decidable (365 < l.sell_date.getD 0 - l.purchase_date))

/-- The long-term contribution of a lot record sold in the window. -/
def longContrib (l : LotRec) : ℚ :=
  if l.sell_date.isSome ∧ isLongTerm l then lotGain l else 0

/-- The short-term contribution of a lot record sold in the window. -/
def shortContrib (l : LotRec) : ℚ :=
  if l.sell_date.isSome ∧ ¬ isLongTerm l then lotGain l else 0

/-- The lots the gains walk processes: the head-backward list up to (not
including) the first closed lot sold before the period start. -/
def gainsSpan (start : ℤ) (ls : List LotRec) : List LotRec :=
  ls.takeWhile fun l => ¬ stopsGains start l

/-- The sum of the open lots' quantities, instrument by instrument (`0` for
an instrument with no state). -/
def sumOpenS (s : LState) : ℚ :=
  match s with
  | none => 0
  | some st => sumOpen st.lots

/-- The running current quantity as a rational (`0` for an instrument with no
state). -/
def cqS (s : LState) : ℚ :=
  match s with
  | none => 0
  | some st => st.cq.toRat

/-- Positivity of all lot quantities, lifted to an optional state. -/
def PosQS (s : LState) : Prop :=
  match s with
  | none => True
  | some st => PosQ st.lots

/-- The contribution of one lot to `sumOpen`. -/
def openContrib (l : Lot) : ℚ := if l.sell_date = none then l.quantity else 0

/-- Boolean test for a closed lot record. -/
def closedB (l : LotRec) : Bool := l.sell_date.isSome

/-- Sale date and sale price both unset or both set, at the record level. -/
def sellConsistent (l : LotRec) : Prop := l.sell_date.isSome ↔ l.sell_price.isSome

/-- The structural invariant of one instrument's entry: some chain realizes
the doubly-linked structure between the root and the head, sale fields are
set consistently, and the closed lots form a contiguous prefix of the chain
(no open lot ever precedes a closed one). -/
def StInv (s : LState) : Prop :=
  match s with
  | none => True
  | some st =>
    ∃ chain, WF st.lots st.root st.head chain ∧
      SellOk st.lots ∧
      closedBeforeOpen (chainRecs st.lots chain)

/-! ### Arena lookup toolkit -/

theorem getL_eq_of_getElem? {lots : List Lot} {i : ℕ} {l : Lot}
    (h : lots[i]? = some l) : getL lots i = l := by
  simp [getL, List.getD_eq_getElem?_getD, h]

theorem getL_set_self {lots : List Lot} {i : ℕ} (v : Lot) (h : i < lots.length) :
    getL (lots.set i v) i = v := by
  simp [getL, List.getD_eq_getElem?_getD, List.getElem?_set_self h]

theorem getL_set_ne {lots : List Lot} {i j : ℕ} (v : Lot) (h : i ≠ j) :
    getL (lots.set i v) j = getL lots j := by
  simp [getL, List.getD_eq_getElem?_getD, List.getElem?_set_ne h]

theorem getL_append_lt {l1 l2 : List Lot} {i : ℕ} (h : i < l1.length) :
    getL (l1 ++ l2) i = getL l1 i := by
  simp [getL, List.getD_eq_getElem?_getD, List.getElem?_append, h]

theorem getL_concat_len {lots : List Lot} (x : Lot) :
    getL (lots ++ [x]) lots.length = x := by
  simp [getL, List.getD_eq_getElem?_getD]

theorem getL_concat_len_set {lots : List Lot} (x v : Lot) (i : ℕ) :
    getL (lots.set i v ++ [x]) lots.length = x := by
  have : (lots.set i v).length = lots.length := List.length_set ..
  rw [← this, getL_concat_len]

/-! ### `sumOpen` arithmetic -/

theorem sumOpen_eq_map_sum (lots : List Lot) :
    sumOpen lots = (lots.map openContrib).sum := rfl

theorem sumOpen_append (l1 l2 : List Lot) :
    sumOpen (l1 ++ l2) = sumOpen l1 + sumOpen l2 := by
  simp [sumOpen]

theorem sumOpen_set {lots : List Lot} {i : ℕ} (v : Lot) (h : i < lots.length) :
    sumOpen (lots.set i v) = sumOpen lots - openContrib (getL lots i) + openContrib v := by
  induction lots generalizing i with
  | nil => simp at h
  | cons a as ih =>
    cases i with
    | zero =>
      simp [sumOpen, getL, openContrib]
      ring
    | succ n =>
      have hn : n < as.length := by simpa using h
      have := ih hn
      simp only [List.set_cons_succ, sumOpen, List.map_cons, List.sum_cons] at *
      have hg : getL (a :: as) (n + 1) = getL as n := by
        simp [getL]
      rw [hg]
      have : ((as.set n v).map fun l => if l.sell_date = none then l.quantity else 0).sum =
          ((as.map fun l => if l.sell_date = none then l.quantity else 0)).sum -
            openContrib (getL as n) + openContrib v := by
        simpa [sumOpen] using this
      rw [this]; ring

/-! ### `Dec` value homomorphisms -/

theorem Dec.toRat_pow_toNat (e m : ℤ) (h : m ≤ e) :
    ((10 : ℚ) ^ (e - m).toNat : ℚ) = (10 : ℚ) ^ (e - m) := by
  rw [← zpow_natCast]
  congr 1
  exact Int.toNat_of_nonneg (by omega)

theorem toRat_decAdd (a b : Dec) : (decAdd a b).toRat = a.toRat + b.toRat := by
  unfold decAdd Dec.toRat
  rcases le_total a.e b.e with hle | hle
  · have hm : min a.e b.e = a.e := min_eq_left hle
    simp only [hm]
    push_cast
    rw [Dec.toRat_pow_toNat a.e a.e le_rfl, Dec.toRat_pow_toNat b.e a.e hle]
    rw [add_mul]
    rw [mul_assoc, mul_assoc, ← zpow_add₀ (by norm_num : (10:ℚ) ≠ 0),
      ← zpow_add₀ (by norm_num : (10:ℚ) ≠ 0)]
    ring_nf
  · have hm : min a.e b.e = b.e := min_eq_right hle
    simp only [hm]
    push_cast
    rw [Dec.toRat_pow_toNat a.e b.e hle, Dec.toRat_pow_toNat b.e b.e le_rfl]
    rw [add_mul]
    rw [mul_assoc, mul_assoc, ← zpow_add₀ (by norm_num : (10:ℚ) ≠ 0),
      ← zpow_add₀ (by norm_num : (10:ℚ) ≠ 0)]
    ring_nf

theorem toRat_decSub (a b : Dec) : (decSub a b).toRat = a.toRat - b.toRat := by
  unfold decSub
  rw [toRat_decAdd]
  unfold Dec.toRat
  push_cast
  ring

theorem toRat_decMul (a b : Dec) : (decMul a b).toRat = a.toRat * b.toRat := by
  unfold decMul Dec.toRat
  push_cast
  rw [zpow_add₀ (by norm_num : (10:ℚ) ≠ 0)]
  ring

theorem toRat_dec0 : dec0.toRat = 0 := by
  simp [dec0, Dec.toRat]

/-! ### Conservation through the FIFO disposal walk -/

theorem getL_mem {lots : List Lot} {i : ℕ} (h : i < lots.length) : getL lots i ∈ lots := by
  rw [getL, List.getD_eq_getElem _ _ h]
  exact List.getElem_mem h

theorem sumOpen_nonneg {lots : List Lot} (h : ∀ l ∈ lots, 0 ≤ l.quantity) :
    0 ≤ sumOpen lots := by
  apply List.sum_nonneg
  intro x hx
  simp only [List.mem_map] at hx
  obtain ⟨l, hl, rfl⟩ := hx
  by_cases hs : l.sell_date = none <;> simp [hs, h l hl]

theorem openContrib_closeL (d : ℤ) (p : ℚ) (l : Lot) : openContrib (closeL d p l) = 0 := by
  simp [openContrib, closeL]

theorem openContrib_of_open {l : Lot} (h : l.sell_date = none) :
    openContrib l = l.quantity := by
  simp [openContrib, h]

theorem sumOpen_splitArena {lots : List Lot} {i : ℕ} (d : ℤ) (p : ℚ) (q : ℚ)
    (hi : i < lots.length) (hopen : (getL lots i).sell_date = none) :
    sumOpen
      (lots.set i
        { getL lots i with
          quantity := (getL lots i).quantity - q,
          prev_lot := some lots.length } ++
        [{ closeL d p (getL lots i) with quantity := q, next_lot := some i }]) =
      sumOpen lots - q := by
  rw [sumOpen_append, sumOpen_set _ hi, openContrib_of_open hopen]
  have h3 : openContrib
      { getL lots i with
        quantity := (getL lots i).quantity - q,
        prev_lot := some lots.length } = (getL lots i).quantity - q := by
    simp [openContrib, hopen]
  have h4 : sumOpen
      [{ closeL d p (getL lots i) with quantity := q, next_lot := some i }] = 0 := by
    simp [sumOpen, closeL]
  rw [h3, h4]; ring

theorem disposeWalk_sumOpen (d : ℤ) (p : ℚ) :
    ∀ (fuel : ℕ) (lots : List Lot) (root : ℕ) (cur : Option ℕ) (q : ℚ)
      (lots' : List Lot) (root' : ℕ),
      disposeWalk d p fuel lots root cur q = .ok (lots', root') → 0 ≤ q →
      sumOpen lots' = sumOpen lots - q := by
  intro fuel
  induction fuel with
  | zero =>
    intro lots root cur q lots' root' h _
    simp [disposeWalk] at h
  | succ fuel ih =>
    intro lots root cur q lots' root' h hq
    cases cur with
    | none =>
      rw [disposeWalk] at h
      by_cases h0 : q ≤ 0
      · rw [if_pos h0] at h
        simp only [Except.ok.injEq, Prod.mk.injEq] at h
        obtain ⟨rfl, rfl⟩ := h
        have : q = 0 := le_antisymm h0 hq
        simp [this]
      · rw [if_neg h0] at h
        simp at h
    | some i =>
      rw [disposeWalk] at h
      by_cases h0 : q ≤ 0
      · rw [if_pos h0] at h
        simp only [Except.ok.injEq, Prod.mk.injEq] at h
        obtain ⟨rfl, rfl⟩ := h
        have : q = 0 := le_antisymm h0 hq
        simp [this]
      · rw [if_neg h0] at h
        by_cases hi : i < lots.length
        · rw [if_pos hi] at h
          by_cases hsell : (getL lots i).sell_date.isSome
          · rw [if_pos hsell] at h
            exact ih _ _ _ _ _ _ h hq
          · rw [if_neg hsell] at h
            have hopen : (getL lots i).sell_date = none :=
              Option.not_isSome_iff_eq_none.mp hsell
            by_cases hle : (getL lots i).quantity ≤ q
            · rw [if_pos hle] at h
              have h2 := ih _ _ _ _ _ _ h (by linarith)
              rw [sumOpen_set (closeL d p (getL lots i)) hi] at h2
              rw [openContrib_closeL, openContrib_of_open hopen] at h2
              rw [h2]; ring
            · rw [if_neg hle] at h
              cases hprev : (getL lots i).prev_lot with
              | some j =>
                rw [hprev, relinkAfterSplit] at h
                simp only [Except.ok.injEq, Prod.mk.injEq] at h
                obtain ⟨rfl, rfl⟩ := h
                have hbase := @sumOpen_splitArena lots i d p q hi hopen
                generalize hA : (lots.set i
                    { getL lots i with
                      quantity := (getL lots i).quantity - q,
                      prev_lot := some lots.length } ++
                    [{ closeL d p (getL lots i) with quantity := q, next_lot := some i }]) =
                  A at hbase ⊢
                by_cases hj : j < A.length
                · rw [sumOpen_set _ hj, hbase]
                  have : openContrib { getL A j with next_lot := some lots.length } =
                      openContrib (getL A j) := by
                    simp [openContrib]
                  rw [this]; ring
                · rw [List.set_eq_of_length_le (le_of_not_lt hj), hbase]
              | none =>
                rw [hprev, relinkAfterSplit] at h
                simp only [Except.ok.injEq, Prod.mk.injEq] at h
                obtain ⟨rfl, rfl⟩ := h
                exact sumOpen_splitArena d p q hi hopen
        · rw [if_neg hi] at h
          simp at h

theorem disposeWalk_le (d : ℤ) (p : ℚ) :
    ∀ (fuel : ℕ) (lots : List Lot) (root : ℕ) (cur : Option ℕ) (q : ℚ)
      (lots' : List Lot) (root' : ℕ),
      disposeWalk d p fuel lots root cur q = .ok (lots', root') → PosQ lots →
      q ≤ sumOpen lots := by
  intro fuel
  induction fuel with
  | zero =>
    intro lots root cur q lots' root' h _
    simp [disposeWalk] at h
  | succ fuel ih =>
    intro lots root cur q lots' root' h hpos
    have hnn : ∀ l ∈ lots, 0 ≤ l.quantity := fun l hl => le_of_lt (hpos l hl)
    by_cases h0 : q ≤ 0
    · exact le_trans h0 (sumOpen_nonneg hnn)
    · cases cur with
      | none =>
        rw [disposeWalk, if_neg h0] at h
        simp at h
      | some i =>
        rw [disposeWalk, if_neg h0] at h
        by_cases hi : i < lots.length
        · rw [if_pos hi] at h
          by_cases hsell : (getL lots i).sell_date.isSome
          · rw [if_pos hsell] at h
            exact ih _ _ _ _ _ _ h hpos
          · rw [if_neg hsell] at h
            have hopen : (getL lots i).sell_date = none :=
              Option.not_isSome_iff_eq_none.mp hsell
            by_cases hle : (getL lots i).quantity ≤ q
            · rw [if_pos hle] at h
              have hpos' : PosQ (lots.set i (closeL d p (getL lots i))) := by
                intro l hl
                rcases List.mem_or_eq_of_mem_set hl with hmem | rfl
                · exact hpos l hmem
                · simpa [closeL] using hpos _ (getL_mem hi)
              have h2 := ih _ _ _ _ _ _ h hpos'
              rw [sumOpen_set (closeL d p (getL lots i)) hi, openContrib_closeL,
                openContrib_of_open hopen] at h2
              linarith
            · -- split case: q < lot quantity ≤ sumOpen
              have hql : q < (getL lots i).quantity := not_le.mp hle
              have hrest : 0 ≤ sumOpen (lots.set i (closeL d p (getL lots i))) := by
                apply sumOpen_nonneg
                intro l hl
                rcases List.mem_or_eq_of_mem_set hl with hmem | rfl
                · exact hnn l hmem
                · simpa [closeL] using hnn _ (getL_mem hi)
              have hsum : sumOpen (lots.set i (closeL d p (getL lots i))) =
                  sumOpen lots - (getL lots i).quantity := by
                rw [sumOpen_set _ hi, openContrib_closeL, openContrib_of_open hopen]; ring
              rw [hsum] at hrest
              linarith
        · rw [if_neg hi] at h
          simp at h

/-! ### Per-operation conservation deltas and the replay invariant -/

theorem acquire_deltas (pd : ℤ) (pp : ℚ) (q : Dec) (s : LState) :
    sumOpenS (acquireOp pd pp q s) = sumOpenS s + q.toRat ∧
    cqS (acquireOp pd pp q s) = cqS s + q.toRat := by
  cases s with
  | none =>
    refine ⟨?_, ?_⟩
    · simp [acquireOp, sumOpenS, sumOpen]
    · simp [acquireOp, cqS, toRat_decAdd, toRat_dec0]
  | some st =>
    refine ⟨?_, ?_⟩
    · simp only [acquireOp, sumOpenS]
      rw [sumOpen_append]
      have h1 : sumOpen
          [{ purchase_date := pd,
             purchase_price := pp,
             quantity := q.toRat,
             sell_date := none,
             sell_price := none,
             prev_lot := some st.head,
             next_lot := none : Lot }] = q.toRat := by
        simp [sumOpen]
      rw [h1]
      by_cases hh : st.head < st.lots.length
      · rw [sumOpen_set _ hh]
        have : openContrib { getL st.lots st.head with next_lot := some st.lots.length } =
            openContrib (getL st.lots st.head) := by
          simp [openContrib]
        rw [this]
        ring
      · rw [List.set_eq_of_length_le (le_of_not_lt hh)]
    · simp [acquireOp, cqS, toRat_decAdd]

theorem dispose_deltas (d : ℤ) (p : ℚ) (q : Dec) (s s' : LState)
    (hq : 0 ≤ q.toRat) (h : disposeOp d p q s = .ok s') :
    sumOpenS s' = sumOpenS s - q.toRat ∧ cqS s' = cqS s - q.toRat := by
  cases s with
  | none => simp [disposeOp] at h
  | some st =>
    cases hw : disposeWalk d p (st.lots.length + 1) st.lots st.root (some st.root) q.toRat with
    | error e => rw [disposeOp, hw] at h; cases h
    | ok pr =>
      obtain ⟨lots', root'⟩ := pr
      rw [disposeOp, hw] at h
      simp only [Except.ok.injEq] at h
      subst h
      refine ⟨?_, ?_⟩
      · simpa [sumOpenS] using disposeWalk_sumOpen d p _ _ _ _ _ _ _ hw hq
      · simp [cqS, toRat_decSub]

theorem replay_conserves :
    ∀ (ops : List Op) (s0 s : LState),
      (∀ op ∈ ops, op.isAcqOrDisp ∧ op.posQty) → replay ops s0 = .ok s →
      sumOpenS s0 = cqS s0 → sumOpenS s = cqS s := by
  intro ops
  induction ops with
  | nil =>
    intro s0 s _ h hinv
    simp only [replay, Except.ok.injEq] at h
    subst h
    exact hinv
  | cons op ops ih =>
    intro s0 s hops h hinv
    obtain ⟨hkind, hpos⟩ := hops op (List.mem_cons_self op ops)
    cases hstep : stepOp op s0 with
    | error e => rw [replay, hstep] at h; cases h
    | ok s1 =>
      rw [replay, hstep] at h
      refine ih s1 s (fun o ho => hops o (List.mem_cons_of_mem _ ho)) h ?_
      cases op with
      | acquire pd pp q =>
        have hd := acquire_deltas pd pp q s0
        simp only [stepOp, Except.ok.injEq] at hstep
        subst hstep
        rw [hd.1, hd.2, hinv]
      | dispose d p q =>
        simp only [stepOp] at hstep
        have hd := dispose_deltas d p q s0 s1 (le_of_lt hpos) hstep
        rw [hd.1, hd.2, hinv]
      | split q o => simp [Op.isAcqOrDisp] at hkind

/-! ### Well-formedness toolkit -/

theorem getL_of_le {lots : List Lot} {i : ℕ} (h : lots.length ≤ i) :
    getL lots i = default := by
  simp [getL, List.getD_eq_getElem?_getD, List.getElem?_eq_none h]

theorem default_lot_next : (default : Lot).next_lot = none := rfl

theorem default_lot_prev : (default : Lot).prev_lot = none := rfl

theorem Linked.lt_left {lots : List Lot} {a b : ℕ} (h : Linked lots a b) :
    a < lots.length := by
  by_contra ha
  have h1 := h.1
  rw [getL_of_le (le_of_not_lt ha), default_lot_next] at h1
  cases h1

theorem Linked.lt_right {lots : List Lot} {a b : ℕ} (h : Linked lots a b) :
    b < lots.length := by
  by_contra hb
  have h1 := h.2
  rw [getL_of_le (le_of_not_lt hb), default_lot_prev] at h1
  cases h1

theorem WF.chain_ne_nil {lots : List Lot} {root head : ℕ} {chain : List ℕ}
    (h : WF lots root head chain) : chain ≠ [] := by
  intro hc
  rw [hc] at h
  exact absurd h.2.2.2.1 (by simp)

theorem WF.root_mem {lots : List Lot} {root head : ℕ} {chain : List ℕ}
    (h : WF lots root head chain) : root ∈ chain := by
  have := h.2.2.2.1
  exact List.mem_of_mem_head? (by rw [this]; rfl)

theorem WF.head_mem {lots : List Lot} {root head : ℕ} {chain : List ℕ}
    (h : WF lots root head chain) : head ∈ chain := by
  have := h.2.2.2.2.1
  exact List.mem_of_mem_getLast? (by rw [this]; rfl)

/-- Appending a fresh head lot (the acquisition) preserves well-formedness,
extending the chain; the data of the existing lots is untouched. -/
theorem acquireOp_WF {st : InstrState} {chain : List ℕ} (pd : ℤ) (pp : ℚ) (q : Dec)
    (h : WF st.lots st.root st.head chain) :
    ∃ st', acquireOp pd pp q (some st) = some st' ∧
      st'.root = st.root ∧ st'.head = st.lots.length ∧
      st'.lots.length = st.lots.length + 1 ∧
      st'.cq = decAdd st.cq q ∧
      WF st'.lots st'.root st'.head (chain ++ [st.lots.length]) ∧
      (∀ i ∈ chain, (getL st'.lots i).toLotRec = (getL st.lots i).toLotRec) ∧
      (getL st'.lots st.lots.length).toLotRec =
        { purchase_date := pd, purchase_price := pp, quantity := q.toRat,
          sell_date := none, sell_price := none } := by
  obtain ⟨hnd, hmem1, hmem2, hhd, hlast, hrootprev, hheadnext, hch⟩ := h
  have hheadlt : st.head < st.lots.length := hmem1 _
    (List.mem_of_mem_getLast? (by rw [hlast]; rfl))
  refine ⟨_, rfl, rfl, rfl, ?_, rfl, ?_, ?_, ?_⟩
  · simp [List.length_set]
  · -- WF of the new state
    have hsetlen : (st.lots.set st.head
        { getL st.lots st.head with next_lot := some st.lots.length }).length =
        st.lots.length := List.length_set ..
    have hgetA : ∀ i, i ≠ st.head → i < st.lots.length →
        getL (st.lots.set st.head
          { getL st.lots st.head with next_lot := some st.lots.length } ++
          [{ purchase_date := pd, purchase_price := pp, quantity := q.toRat,
             sell_date := none, sell_price := none, prev_lot := some st.head,
             next_lot := none }]) i = getL st.lots i := by
      intro i hne hlt
      rw [getL_append_lt (by rw [hsetlen]; exact hlt), getL_set_ne _ (Ne.symm hne)]
    have hgetHead : getL (st.lots.set st.head
          { getL st.lots st.head with next_lot := some st.lots.length } ++
          [{ purchase_date := pd, purchase_price := pp, quantity := q.toRat,
             sell_date := none, sell_price := none, prev_lot := some st.head,
             next_lot := none }]) st.head =
        { getL st.lots st.head with next_lot := some st.lots.length } := by
      rw [getL_append_lt (by rw [hsetlen]; exact hheadlt), getL_set_self _ hheadlt]
    have hgetNew : getL (st.lots.set st.head
          { getL st.lots st.head with next_lot := some st.lots.length } ++
          [{ purchase_date := pd, purchase_price := pp, quantity := q.toRat,
             sell_date := none, sell_price := none, prev_lot := some st.head,
             next_lot := none }]) st.lots.length =
        { purchase_date := pd, purchase_price := pp, quantity := q.toRat,
          sell_date := none, sell_price := none, prev_lot := some st.head,
          next_lot := none } := getL_concat_len_set _ _ _
    refine ⟨?_, ?_, ?_, ?_, ?_, ?_, ?_, ?_⟩
    · simp only [List.nodup_append, List.nodup_cons, List.nodup_nil, and_true]
      refine ⟨hnd, by simp, ?_⟩
      intro a ha hb
      simp only [List.mem_singleton] at hb
      subst hb
      exact absurd (hmem1 _ ha) (lt_irrefl _)
    · intro i hi
      simp only [List.length_append, hsetlen, List.length_singleton]
      rcases List.mem_append.mp hi with hi | hi
      · exact Nat.lt_succ_of_lt (hmem1 _ hi)
      · simp only [List.mem_singleton] at hi
        subst hi
        exact Nat.lt_succ_self _
    · intro i hi
      simp only [List.length_append, hsetlen, List.length_singleton] at hi
      rcases Nat.lt_succ_iff_lt_or_eq.mp hi with hlt | heq
      · exact List.mem_append.mpr (Or.inl (hmem2 _ hlt))
      · subst heq
        exact List.mem_append.mpr (Or.inr (by simp))
    · rw [List.head?_append, hhd]
      rfl
    · exact List.getLast?_concat _
    · -- the root's prev_lot is still none
      by_cases hr : st.root = st.head
      · rw [hr, hgetHead]
        simpa using (hr ▸ hrootprev)
      · rw [hgetA _ hr (hmem1 _ (List.mem_of_mem_head? (by rw [hhd]; rfl)))]
        exact hrootprev
    · rw [hgetNew]
    · -- the chain links, including the new final link
      rw [List.chain'_append]
      refine ⟨?_, List.chain'_singleton _, ?_⟩
      · -- existing links survive: a linked pair never starts at the old head
        apply List.Chain'.imp ?_ hch
        intro a b hab
        have hanext := hab.1
        have hbprev := hab.2
        have halt : a < st.lots.length := hab.lt_left
        have hblt : b < st.lots.length := hab.lt_right
        have hahead : a ≠ st.head := by
          intro hcontra
          rw [hcontra, hheadnext] at hanext
          cases hanext
        constructor
        · rw [hgetA _ hahead halt]
          exact hanext
        · by_cases hbh : b = st.head
          · rw [hbh, hgetHead]
            simpa using (hbh ▸ hbprev)
          · rw [hgetA _ hbh hblt]
            exact hbprev
      · -- the old head links to the new lot
        intro x hx y hy
        rw [hlast] at hx
        simp only [Option.mem_def, Option.some.injEq] at hx
        subst hx
        simp only [List.head?_cons, Option.mem_def, Option.some.injEq] at hy
        subst hy
        constructor
        · rw [hgetHead]
        · rw [hgetNew]
  · intro i hi
    have hlt : i < st.lots.length := hmem1 _ hi
    by_cases hih : i = st.head
    · subst hih
      rw [getL_append_lt (by rw [List.length_set]; exact hlt), getL_set_self _ hlt]
      simp [Lot.toLotRec]
    · rw [getL_append_lt (by rw [List.length_set]; exact hlt), getL_set_ne _ (Ne.symm hih)]
  · rw [getL_concat_len_set]
    simp [Lot.toLotRec]

/-! ### Chain transport helpers -/

theorem chain'_imp_mem {α : Type} {R S : α → α → Prop} :
    ∀ {l : List α}, List.Chain' R l → (∀ a ∈ l, ∀ b ∈ l, R a b → S a b) →
      List.Chain' S l := by
  intro l
  induction l with
  | nil => intro _ _; exact List.chain'_nil
  | cons a l ih =>
    intro h himp
    cases l with
    | nil => exact List.chain'_singleton a
    | cons b l' =>
      rw [List.chain'_cons] at h ⊢
      refine ⟨himp a (by simp) b (by simp) h.1, ih h.2 ?_⟩
      intro x hx y hy hr
      exact himp x (by simp [hx]) y (by simp [hy]) hr

/-- Well-formedness only looks at the links; replacing the arena by one of the
same length with identical `prev_lot`/`next_lot` everywhere preserves it. -/
theorem WF_of_links_eq {lots lots' : List Lot} {root head : ℕ} {chain : List ℕ}
    (hlen : lots'.length = lots.length)
    (hpn : ∀ j, (getL lots' j).prev_lot = (getL lots j).prev_lot ∧
      (getL lots' j).next_lot = (getL lots j).next_lot)
    (h : WF lots root head chain) : WF lots' root head chain := by
  obtain ⟨hnd, hmem1, hmem2, hhd, hlast, hrootprev, hheadnext, hch⟩ := h
  refine ⟨hnd, ?_, ?_, hhd, hlast, ?_, ?_, ?_⟩
  · intro i hi; rw [hlen]; exact hmem1 i hi
  · intro i hi; rw [hlen] at hi; exact hmem2 i hi
  · rw [(hpn root).1]; exact hrootprev
  · rw [(hpn head).2]; exact hheadnext
  · apply List.Chain'.imp ?_ hch
    intro a b hab
    exact ⟨by rw [(hpn a).2]; exact hab.1, by rw [(hpn b).1]; exact hab.2⟩

theorem WF_set_same_links {lots : List Lot} {root head : ℕ} {chain : List ℕ}
    {i : ℕ} {v : Lot} (hi : i < lots.length)
    (hprev : v.prev_lot = (getL lots i).prev_lot)
    (hnext : v.next_lot = (getL lots i).next_lot)
    (h : WF lots root head chain) : WF (lots.set i v) root head chain := by
  apply WF_of_links_eq (List.length_set ..) ?_ h
  intro j
  by_cases hji : j = i
  · subst hji
    rw [getL_set_self _ hi]
    exact ⟨hprev, hnext⟩
  · rw [getL_set_ne _ (Ne.symm hji)]
    exact ⟨rfl, rfl⟩

theorem WF.chain_length_le {lots : List Lot} {root head : ℕ} {chain : List ℕ}
    (h : WF lots root head chain) : chain.length ≤ lots.length := by
  obtain ⟨hnd, hmem1, -, -, -, -, -, -⟩ := h
  classical
  have h1 : chain.toFinset.card = chain.length := List.toFinset_card_of_nodup hnd
  have h2 : chain.toFinset ⊆ Finset.range lots.length := by
    intro x hx
    simp only [List.mem_toFinset] at hx
    simpa using hmem1 x hx
  calc chain.length = chain.toFinset.card := h1.symm
    _ ≤ (Finset.range lots.length).card := Finset.card_le_card h2
    _ = lots.length := Finset.card_range _

/-- Facts shared by both relink cases of the split insertion.  `front` and
`reduced` are abstract lots whose links are as `Lot.split` sets them: the
front lot inherits the original's `prev_lot` and points `next_lot` at the
original; the original's `prev_lot` becomes the new index.  `A` is the arena
after the in-place update and the append of the front lot. -/
theorem splitArena_getL {lots : List Lot} {i : ℕ} {front reduced : Lot}
    {A : List Lot} (hi : i < lots.length) (hA : A = lots.set i reduced ++ [front]) :
    A.length = lots.length + 1 ∧
    (∀ j, j < lots.length → j ≠ i → getL A j = getL lots j) ∧
    getL A i = reduced ∧ getL A lots.length = front := by
  subst hA
  refine ⟨by simp [List.length_set], ?_, ?_, getL_concat_len_set _ _ _⟩
  · intro j hj hne
    rw [getL_append_lt (by rw [List.length_set]; exact hj), getL_set_ne _ (Ne.symm hne)]
  · rw [getL_append_lt (by rw [List.length_set]; exact hi), getL_set_self _ hi]

/-- The split insertion when the original lot was the root (`prev_lot` is
`None`): the chain's prefix before the original is empty, and the new front
lot becomes the root. -/
theorem WF_split_insert_none {lots : List Lot} {root head : ℕ} {pre rest : List ℕ}
    {i : ℕ} (front reduced : Lot) (A : List Lot)
    (h : WF lots root head (pre ++ i :: rest))
    (hfrontprev : front.prev_lot = (getL lots i).prev_lot)
    (hfrontnext : front.next_lot = some i)
    (hredprev : reduced.prev_lot = some lots.length)
    (hrednext : reduced.next_lot = (getL lots i).next_lot)
    (hA : A = lots.set i reduced ++ [front])
    (hprev : (getL lots i).prev_lot = none) :
    pre = [] ∧ WF A lots.length head (lots.length :: i :: rest) := by
  obtain ⟨hnd, hmem1, hmem2, hhd, hlast, hrootprev, hheadnext, hch⟩ := h
  have hi : i < lots.length := hmem1 i (by simp)
  obtain ⟨hAlen, gA1, gA2, gA3⟩ := splitArena_getL hi hA
  -- the prefix must be empty: a nonempty prefix would give the original a prev
  have hpre : pre = [] := by
    cases hpre : pre with
    | nil => rfl
    | cons a pre' =>
      exfalso
      rw [hpre] at hch
      have hjoin := (List.chain'_append.mp hch).2.2
      have hne : (a :: pre') ≠ [] := by simp
      have hlk := hjoin ((a :: pre').getLast hne)
        (by rw [List.getLast?_eq_getLast _ hne]; rfl) i (by simp)
      rw [hlk.2] at hprev
      cases hprev
  subst hpre
  simp only [List.nil_append] at hnd hmem1 hmem2 hhd hlast hch
  have hroot : root = i := by
    simp only [List.head?_cons, Option.some.injEq] at hhd
    exact hhd.symm
  have hnotin : (lots.length : ℕ) ∉ i :: rest := by
    intro hmm
    exact absurd (hmem1 _ hmm) (lt_irrefl _)
  have hrestlt : ∀ j ∈ rest, j < lots.length := fun j hj => hmem1 j (by simp [hj])
  have hrestne : ∀ j ∈ rest, j ≠ i := by
    intro j hj hcontra
    subst hcontra
    exact absurd hnd (by simp [List.nodup_cons, hj])
  refine ⟨rfl, ?_, ?_, ?_, ?_, ?_, ?_, ?_, ?_⟩
  · simp only [List.nodup_cons] at hnd ⊢
    exact ⟨hnotin, hnd⟩
  · intro j hj
    rw [hAlen]
    rcases List.mem_cons.mp hj with rfl | hj
    · exact Nat.lt_succ_self _
    · exact Nat.lt_succ_of_lt (hmem1 _ hj)
  · intro j hj
    rw [hAlen] at hj
    rcases Nat.lt_succ_iff_lt_or_eq.mp hj with hlt | rfl
    · exact List.mem_cons_of_mem _ (hmem2 _ hlt)
    · simp
  · rfl
  · rw [List.getLast?_cons_cons]
    exact hlast
  · rw [gA3, hfrontprev, hprev]
  · -- the head's next_lot is still none
    cases hr : rest with
    | nil =>
      rw [hr] at hlast
      simp only [List.getLast?_singleton, Option.some.injEq] at hlast
      subst hlast
      rw [gA2, hrednext]
      exact hheadnext
    | cons r0 rest' =>
      have hheadmem : head ∈ rest := by
        rw [hr]
        have := hlast
        rw [hr, List.getLast?_cons_cons] at this
        exact List.mem_of_mem_getLast? (by rw [this]; rfl)
      rw [gA1 head (hrestlt _ hheadmem) (hrestne _ hheadmem)]
      exact hheadnext
  · -- chain links: new front → original → rest
    rw [List.chain'_cons]
    constructor
    · exact ⟨by rw [gA3, hfrontnext], by rw [gA2, hredprev]⟩
    · rw [List.chain'_cons']
      constructor
      · intro y hy
        have hymem : y ∈ rest := List.mem_of_mem_head? hy
        have hch2 : Linked lots i y := (List.chain'_cons'.mp hch).1 y hy
        exact ⟨by rw [gA2, hrednext]; exact hch2.1,
          by rw [gA1 y (hrestlt y hymem) (hrestne y hymem)]; exact hch2.2⟩
      · have hchrest : List.Chain' (Linked lots) rest := (List.chain'_cons'.mp hch).2
        apply chain'_imp_mem hchrest
        intro a ha b hb hab
        have halt := hrestlt a ha
        have hblt := hrestlt b hb
        exact ⟨by rw [gA1 a halt (hrestne a ha)]; exact hab.1,
          by rw [gA1 b hblt (hrestne b hb)]; exact hab.2⟩

/-- The split insertion when the original lot has a predecessor `jj`: the
predecessor's `next_lot` is redirected to the new front lot, the root is
unchanged, and the new index is spliced into the chain just before the
original.  Data fields (everything but the links) of all lots other than the
original and the new front lot are untouched. -/
theorem WF_split_insert_some {lots : List Lot} {root head : ℕ} {pre rest : List ℕ}
    {i jj : ℕ} (front reduced : Lot) (A : List Lot)
    (h : WF lots root head (pre ++ i :: rest))
    (hfrontprev : front.prev_lot = (getL lots i).prev_lot)
    (hfrontnext : front.next_lot = some i)
    (hredprev : reduced.prev_lot = some lots.length)
    (hrednext : reduced.next_lot = (getL lots i).next_lot)
    (hA : A = lots.set i reduced ++ [front])
    (hprev : (getL lots i).prev_lot = some jj) :
    WF (A.set jj { getL A jj with next_lot := some lots.length }) root head
      (pre ++ lots.length :: i :: rest) ∧
    (∀ j, j < lots.length → j ≠ i →
      (getL (A.set jj { getL A jj with next_lot := some lots.length }) j).toLotRec =
        (getL lots j).toLotRec) ∧
    (getL (A.set jj { getL A jj with next_lot := some lots.length }) i).toLotRec =
      reduced.toLotRec ∧
    (getL (A.set jj { getL A jj with next_lot := some lots.length }) lots.length).toLotRec =
      front.toLotRec := by
  obtain ⟨hnd, hmem1, hmem2, hhd, hlast, hrootprev, hheadnext, hch⟩ := h
  have hi : i < lots.length := hmem1 i (by simp)
  obtain ⟨hAlen, gA1, gA2, gA3⟩ := splitArena_getL hi hA
  obtain ⟨hndpre, hndsuf, hdisj⟩ := List.nodup_append.mp hnd
  have hinotpre : i ∉ pre := fun hip => hdisj hip (by simp)
  -- the prefix is nonempty and ends at jj
  have hprene : pre ≠ [] := by
    intro hp
    subst hp
    simp only [List.nil_append, List.head?_cons, Option.some.injEq] at hhd
    subst hhd
    rw [hrootprev] at hprev
    cases hprev
  have hjoin := (List.chain'_append.mp hch).2.2
  have hlkji : Linked lots (pre.getLast hprene) i :=
    hjoin _ (by rw [List.getLast?_eq_getLast _ hprene]; rfl) i (by simp)
  have hjj : pre.getLast hprene = jj := by
    have := hlkji.2
    rw [hprev] at this
    exact (Option.some.injEq _ _).mp this.symm
  have hjjmem : jj ∈ pre := hjj ▸ List.getLast_mem hprene
  have hjjlt : jj < lots.length := hmem1 jj (List.mem_append.mpr (Or.inl hjjmem))
  have hjjne : jj ≠ i := fun hc => hinotpre (hc ▸ hjjmem)
  have hjjA : jj < A.length := by rw [hAlen]; exact Nat.lt_succ_of_lt hjjlt
  have hgAjj : getL A jj = getL lots jj := gA1 jj hjjlt hjjne
  -- lookups in the final arena B
  have gB1 : ∀ j, j < lots.length → j ≠ i → j ≠ jj →
      getL (A.set jj { getL A jj with next_lot := some lots.length }) j = getL lots j := by
    intro j hj hji hjjj
    rw [getL_set_ne _ (fun hc => hjjj hc.symm), gA1 j hj hji]
  have gB2 : getL (A.set jj { getL A jj with next_lot := some lots.length }) i = reduced := by
    rw [getL_set_ne _ hjjne, gA2]
  have gB3 : getL (A.set jj { getL A jj with next_lot := some lots.length }) lots.length =
      front := by
    rw [getL_set_ne _ (fun hc => absurd (hc ▸ hjjlt) (lt_irrefl _)), gA3]
  have gB4 : getL (A.set jj { getL A jj with next_lot := some lots.length }) jj =
      { getL lots jj with next_lot := some lots.length } := by
    rw [getL_set_self _ hjjA, hgAjj]
  have gBprev : ∀ j, j < lots.length → j ≠ i →
      (getL (A.set jj { getL A jj with next_lot := some lots.length }) j).prev_lot =
        (getL lots j).prev_lot := by
    intro j hj hji
    by_cases hjjj : j = jj
    · subst hjjj; rw [gB4]
    · rw [gB1 j hj hji hjjj]
  have hnotin : (lots.length : ℕ) ∉ pre ++ i :: rest := by
    intro hmm
    exact absurd (hmem1 _ hmm) (lt_irrefl _)
  have hrestfacts : ∀ j ∈ rest, j < lots.length ∧ j ≠ i ∧ j ≠ jj := by
    intro j hj
    refine ⟨hmem1 j (by simp [hj]), ?_, ?_⟩
    · intro hc
      subst hc
      simp only [List.nodup_cons] at hndsuf
      exact hndsuf.1 hj
    · intro hc
      subst hc
      exact hdisj hjjmem (by simp [hj])
  have hprefacts : ∀ j ∈ pre, j < lots.length ∧ j ≠ i := by
    intro j hj
    exact ⟨hmem1 j (List.mem_append.mpr (Or.inl hj)), fun hc => hinotpre (hc ▸ hj)⟩
  have hlast2 : (i :: rest).getLast? = some head := by
    rw [List.getLast?_append] at hlast
    cases hx : (i :: rest).getLast? with
    | none => exact absurd hx (by simp [List.getLast?_eq_getElem?])
    | some z => rw [hx] at hlast; simpa using hlast
  have hhd2 : pre.head? = some root := by
    rw [List.head?_append] at hhd
    cases hx : pre.head? with
    | none => exact absurd hx (by simp [List.head?_eq_none_iff, hprene])
    | some z => rw [hx] at hhd; simpa using hhd
  constructor
  · refine ⟨?_, ?_, ?_, ?_, ?_, ?_, ?_, ?_⟩
    · -- Nodup
      rw [List.nodup_append]
      refine ⟨hndpre, ?_, ?_⟩
      · rw [List.nodup_cons]
        exact ⟨fun hmm => hnotin (List.mem_append.mpr (Or.inr hmm)), hndsuf⟩
      · intro a ha hb
        simp only [List.mem_cons] at hb
        rcases hb with rfl | hb
        · exact hnotin (List.mem_append.mpr (Or.inl ha))
        · exact hdisj ha (by simpa using hb)
    · intro j hj
      rw [List.length_set, hAlen]
      rcases List.mem_append.mp hj with hj | hj
      · exact Nat.lt_succ_of_lt (hmem1 j (List.mem_append.mpr (Or.inl hj)))
      · simp only [List.mem_cons] at hj
        rcases hj with rfl | hj
        · exact Nat.lt_succ_self _
        · exact Nat.lt_succ_of_lt (hmem1 j (by simp [hj]))
    · intro j hj
      rw [List.length_set, hAlen] at hj
      rcases Nat.lt_succ_iff_lt_or_eq.mp hj with hlt | rfl
      · rcases List.mem_append.mp (hmem2 j hlt) with hm | hm
        · exact List.mem_append.mpr (Or.inl hm)
        · simp only [List.mem_cons] at hm
          exact List.mem_append.mpr (Or.inr (by simp [hm]))
      · exact List.mem_append.mpr (Or.inr (by simp))
    · rw [List.head?_append, hhd2]; rfl
    · rw [List.getLast?_append, List.getLast?_cons_cons, hlast2]; rfl
    · -- root prev
      have hrmem : root ∈ pre := List.mem_of_mem_head? (by rw [hhd2]; rfl)
      obtain ⟨hrlt, hrne⟩ := hprefacts root hrmem
      rw [gBprev root hrlt hrne]
      exact hrootprev
    · -- head next
      cases hr : rest with
      | nil =>
        rw [hr] at hlast2
        simp only [List.getLast?_singleton, Option.some.injEq] at hlast2
        subst hlast2
        rw [gB2, hrednext]
        exact hheadnext
      | cons r0 rest' =>
        have hheadmem : head ∈ rest := by
          rw [hr] at hlast2 ⊢
          rw [List.getLast?_cons_cons] at hlast2
          exact List.mem_of_mem_getLast? (by rw [hlast2]; rfl)
        obtain ⟨hhl, hhne, hhnjj⟩ := hrestfacts head hheadmem
        rw [gB1 head hhl hhne hhnjj]
        exact hheadnext
    · -- chain links
      rw [List.chain'_append]
      refine ⟨?_, ?_, ?_⟩
      · -- links inside the prefix survive
        apply chain'_imp_mem (List.chain'_append.mp hch).1
        intro a ha b hb hab
        obtain ⟨halt, hane⟩ := hprefacts a ha
        obtain ⟨hblt, hbne⟩ := hprefacts b hb
        have hanjj : a ≠ jj := by
          intro hc
          subst hc
          have h1 := hab.1
          have h2 := hlkji.1
          rw [hjj] at h2
          rw [h1] at h2
          have : b = i := by simpa using h2
          exact hinotpre (this ▸ hb)
        exact ⟨by rw [gB1 a halt hane hanjj]; exact hab.1,
          by rw [gBprev b hblt hbne]; exact hab.2⟩
      · -- new lot → original → the rest of the chain
        rw [List.chain'_cons]
        refine ⟨⟨by rw [gB3, hfrontnext], by rw [gB2, hredprev]⟩, ?_⟩
        rw [List.chain'_cons']
        constructor
        · intro y hy
          have hymem : y ∈ rest := List.mem_of_mem_head? hy
          have hch2 : Linked lots i y :=
            (List.chain'_cons'.mp (List.chain'_append.mp hch).2.1).1 y hy
          obtain ⟨hyl, hyne, hynjj⟩ := hrestfacts y hymem
          exact ⟨by rw [gB2, hrednext]; exact hch2.1,
            by rw [gB1 y hyl hyne hynjj]; exact hch2.2⟩
        · apply chain'_imp_mem (List.chain'_cons'.mp (List.chain'_append.mp hch).2.1).2
          intro a ha b hb hab
          obtain ⟨hal, hane, hanjj⟩ := hrestfacts a ha
          obtain ⟨hbl, hbne, hbnjj⟩ := hrestfacts b hb
          exact ⟨by rw [gB1 a hal hane hanjj]; exact hab.1,
            by rw [gB1 b hbl hbne hbnjj]; exact hab.2⟩
      · -- prefix tail joins the new lot
        intro x hx y hy
        have hxjj : x = jj := by
          rw [List.getLast?_eq_getLast _ hprene] at hx
          simp only [Option.mem_def, Option.some.injEq] at hx
          rw [← hx, hjj]
        have hyn : y = lots.length := by
          simp only [List.head?_cons, Option.mem_def, Option.some.injEq] at hy
          exact hy.symm
        subst hxjj
        subst hyn
        exact ⟨by rw [gB4], by rw [gB3, hfrontprev, hprev]⟩
  · refine ⟨?_, by rw [gB2], by rw [gB3]⟩
    intro j hj hji
    by_cases hjjj : j = jj
    · subst hjjj
      rw [gB4]
      simp [Lot.toLotRec]
    · rw [gB1 j hj hji hjjj]

@[simp] theorem toLotRec_sell_date (l : Lot) : l.toLotRec.sell_date = l.sell_date := rfl

@[simp] theorem toLotRec_sell_price (l : Lot) : l.toLotRec.sell_price = l.sell_price := rfl

@[simp] theorem toLotRec_quantity (l : Lot) : l.toLotRec.quantity = l.quantity := rfl

@[simp] theorem toLotRec_purchase_date (l : Lot) : l.toLotRec.purchase_date = l.purchase_date := rfl

@[simp] theorem toLotRec_purchase_price (l : Lot) :
    l.toLotRec.purchase_price = l.purchase_price := rfl

theorem toLotRec_closeL (d : ℤ) (p : ℚ) (l : Lot) :
    (closeL d p l).toLotRec = closeRec d p l.toLotRec := rfl

/-- In a well-formed chain `pre ++ i :: rest`, lot `i`'s `next_lot` points at
the head of `rest` (and is `None` when `rest` is empty). -/
theorem WF_next_of_cons {lots : List Lot} {root head : ℕ} {pre rest : List ℕ} {i : ℕ}
    (hwf : WF lots root head (pre ++ i :: rest)) :
    (getL lots i).next_lot = rest.head? := by
  obtain ⟨-, -, -, -, hlast, -, hheadnext, hch⟩ := hwf
  cases rest with
  | nil =>
    have hhead : head = i := by
      rw [List.getLast?_append] at hlast
      simp only [List.getLast?_singleton, Option.or] at hlast
      exact ((Option.some.injEq _ _).mp hlast.symm)
    rw [← hhead]
    rw [hheadnext]
    rfl
  | cons r0 rest' =>
    have hsub : List.Chain' (Linked lots) (i :: r0 :: rest') :=
      (List.chain'_append.mp hch).2.1
    have hlk : Linked lots i r0 := (List.chain'_cons.mp hsub).1
    rw [hlk.1]
    rfl

/-- The pointer-level FIFO walk refines the list-level `aWalk`: started at the
head of the chain suffix `rem` (with the prefix `pre` already walked), it
produces the same error, or an arena whose chain is `pre` followed by lots
whose data is exactly `aWalk`'s output, with the data of the `pre` lots
untouched and well-formedness preserved. -/
theorem disposeWalk_refines (d : ℤ) (p : ℚ) :
    ∀ (rem pre : List ℕ) (lots : List Lot) (root head : ℕ) (q : ℚ) (fuel : ℕ),
      WF lots root head (pre ++ rem) →
      rem.length < fuel →
      (∀ e, aWalk d p q (rem.map fun k => (getL lots k).toLotRec) = .error e →
        disposeWalk d p fuel lots root rem.head? q = .error e) ∧
      (∀ ls', aWalk d p q (rem.map fun k => (getL lots k).toLotRec) = .ok ls' →
        ∃ lots' root' chain2,
          disposeWalk d p fuel lots root rem.head? q = .ok (lots', root') ∧
          WF lots' root' head (pre ++ chain2) ∧
          chain2.map (fun k => (getL lots' k).toLotRec) = ls' ∧
          (∀ j ∈ pre, (getL lots' j).toLotRec = (getL lots j).toLotRec)) := by
  intro rem
  induction rem with
  | nil =>
    intro pre lots root head q fuel hwf hfuel
    obtain ⟨fuel, rfl⟩ : ∃ f, fuel = f + 1 := ⟨fuel - 1, by omega⟩
    constructor
    · intro e he
      simp only [List.map_nil, aWalk] at he
      by_cases h0 : q ≤ 0
      · rw [if_pos h0] at he; cases he
      · rw [if_neg h0] at he
        simp only [Except.error.injEq] at he
        subst he
        simp only [List.head?_nil]
        rw [disposeWalk, if_neg h0]
    · intro ls' hok
      simp only [List.map_nil, aWalk] at hok
      by_cases h0 : q ≤ 0
      · rw [if_pos h0] at hok
        simp only [Except.ok.injEq] at hok
        subst hok
        refine ⟨lots, root, [], ?_, by simpa using hwf, by simp, fun j _ => rfl⟩
        simp only [List.head?_nil]
        rw [disposeWalk, if_pos h0]
      · rw [if_neg h0] at hok; cases hok
  | cons i rest ih =>
    intro pre lots root head q fuel hwf hfuel
    obtain ⟨fuel, rfl⟩ : ∃ f, fuel = f + 1 := ⟨fuel - 1, by omega⟩
    have hfuel' : rest.length < fuel := by
      simp only [List.length_cons] at hfuel; omega
    have hi : i < lots.length := hwf.2.1 i (by simp)
    have hnext : (getL lots i).next_lot = rest.head? := WF_next_of_cons hwf
    have hnd := hwf.1
    have hinotpre : i ∉ pre := by
      intro hip
      have := (List.nodup_append.mp hnd).2.2 hip (by simp)
      exact this
    have hinotrest : i ∉ rest := by
      have := (List.nodup_append.mp hnd).2.1
      rw [List.nodup_cons] at this
      exact this.1
    simp only [List.head?_cons, List.map_cons]
    by_cases h0 : q ≤ 0
    · constructor
      · intro e he
        rw [aWalk, if_pos h0] at he
        cases he
      · intro ls' hok
        rw [aWalk, if_pos h0] at hok
        simp only [Except.ok.injEq] at hok
        subst hok
        refine ⟨lots, root, i :: rest, ?_, hwf, by simp, fun j _ => rfl⟩
        rw [disposeWalk, if_pos h0]
    · by_cases hsell : (getL lots i).sell_date.isSome
      · -- skip an already-closed lot
        have hwf' : WF lots root head ((pre ++ [i]) ++ rest) := by
          rwa [List.append_assoc, List.singleton_append]
        have hih := ih (pre ++ [i]) lots root head q fuel hwf' hfuel'
        have hwalkeq : disposeWalk d p (fuel + 1) lots root (some i) q =
            disposeWalk d p fuel lots root rest.head? q := by
          rw [disposeWalk, if_neg h0, if_pos hi, if_pos hsell, hnext]
        constructor
        · intro e he
          rw [aWalk, if_neg h0, if_pos (by simpa using hsell)] at he
          rw [hwalkeq]
          cases hrec : aWalk d p q (rest.map fun k => (getL lots k).toLotRec) with
          | error e' =>
            rw [hrec] at he
            simp only [Except.error.injEq] at he
            subst he
            exact hih.1 e' hrec
          | ok ls'' => rw [hrec] at he; cases he
        · intro ls' hok
          rw [aWalk, if_neg h0, if_pos (by simpa using hsell)] at hok
          cases hrec : aWalk d p q (rest.map fun k => (getL lots k).toLotRec) with
          | error e' => rw [hrec] at hok; cases hok
          | ok ls'' =>
            rw [hrec] at hok
            simp only [Except.ok.injEq] at hok
            subst hok
            obtain ⟨lots', root', chain2'', hwk, hwf'', hmap'', hun''⟩ := hih.2 ls'' hrec
            refine ⟨lots', root', i :: chain2'', by rw [hwalkeq]; exact hwk, ?_, ?_, ?_⟩
            · rwa [List.append_assoc, List.singleton_append] at hwf''
            · simp only [List.map_cons]
              rw [hmap'', hun'' i (by simp)]
            · intro j hj
              exact hun'' j (by simp [hj])
      · -- an open lot
        have hopen : (getL lots i).sell_date = none := Option.not_isSome_iff_eq_none.mp hsell
        by_cases hle : (getL lots i).quantity ≤ q
        · -- the lot is closed whole
          have hwf1 : WF (lots.set i (closeL d p (getL lots i))) root head
              ((pre ++ [i]) ++ rest) := by
            rw [List.append_assoc, List.singleton_append]
            exact WF_set_same_links hi rfl rfl hwf
          have hrestmap : rest.map (fun k => (getL (lots.set i (closeL d p (getL lots i))) k).toLotRec) =
              rest.map (fun k => (getL lots k).toLotRec) := by
            apply List.map_congr_left
            intro j hj
            rw [getL_set_ne _ (fun hc => hinotrest (by rw [hc]; exact hj))]
          have hih := ih (pre ++ [i]) (lots.set i (closeL d p (getL lots i))) root head
            (q - (getL lots i).quantity) fuel hwf1 hfuel'
          have hwalkeq : disposeWalk d p (fuel + 1) lots root (some i) q =
              disposeWalk d p fuel (lots.set i (closeL d p (getL lots i))) root
                rest.head? (q - (getL lots i).quantity) := by
            rw [disposeWalk, if_neg h0, if_pos hi, if_neg hsell, if_pos hle, hnext]
          constructor
          · intro e he
            rw [aWalk, if_neg h0, if_neg (by simpa using hsell),
              if_pos (by simpa using hle)] at he
            rw [hwalkeq]
            cases hrec : aWalk d p (q - (getL lots i).quantity)
                (rest.map fun k => (getL lots k).toLotRec) with
            | error e' =>
              rw [show ((getL lots i).toLotRec).quantity = (getL lots i).quantity from rfl,
                hrec] at he
              simp only [Except.error.injEq] at he
              subst he
              exact hih.1 e' (by rw [hrestmap]; exact hrec)
            | ok ls'' =>
              rw [show ((getL lots i).toLotRec).quantity = (getL lots i).quantity from rfl,
                hrec] at he
              cases he
          · intro ls' hok
            rw [aWalk, if_neg h0, if_neg (by simpa using hsell),
              if_pos (by simpa using hle)] at hok
            cases hrec : aWalk d p (q - (getL lots i).quantity)
                (rest.map fun k => (getL lots k).toLotRec) with
            | error e' =>
              rw [show ((getL lots i).toLotRec).quantity = (getL lots i).quantity from rfl,
                hrec] at hok
              cases hok
            | ok ls'' =>
              rw [show ((getL lots i).toLotRec).quantity = (getL lots i).quantity from rfl,
                hrec] at hok
              simp only [Except.ok.injEq] at hok
              subst hok
              obtain ⟨lots', root', chain2'', hwk, hwf'', hmap'', hun''⟩ :=
                hih.2 ls'' (by rw [hrestmap]; exact hrec)
              refine ⟨lots', root', i :: chain2'', by rw [hwalkeq]; exact hwk, ?_, ?_, ?_⟩
              · rwa [List.append_assoc, List.singleton_append] at hwf''
              · simp only [List.map_cons]
                rw [hmap'', hun'' i (by simp), getL_set_self _ hi, toLotRec_closeL]
              · intro j hj
                rw [hun'' j (by simp [hj]),
                  getL_set_ne _ (fun hc => hinotpre (by rw [hc]; exact hj))]
        · -- partial sale: split the lot
          have hq0 : ¬ ((getL lots i).toLotRec.quantity ≤ q) := by simpa using hle
          constructor
          · intro e he
            rw [aWalk, if_neg h0, if_neg (by simpa using hsell), if_neg hq0] at he
            cases he
          · intro ls' hok
            rw [aWalk, if_neg h0, if_neg (by simpa using hsell), if_neg hq0] at hok
            simp only [Except.ok.injEq] at hok
            subst hok
            have hwalkeq : disposeWalk d p (fuel + 1) lots root (some i) q =
                relinkAfterSplit root
                  (lots.set i
                    { getL lots i with
                      quantity := (getL lots i).quantity - q,
                      prev_lot := some lots.length } ++
                    [{ closeL d p (getL lots i) with quantity := q, next_lot := some i }])
                  lots.length (getL lots i).prev_lot := by
              rw [disposeWalk, if_neg h0, if_pos hi, if_neg hsell, if_neg hle]
            have hfrontrec : ({ closeL d p (getL lots i) with
                quantity := q, next_lot := some i } : Lot).toLotRec =
                { closeRec d p (getL lots i).toLotRec with quantity := q } := rfl
            have hredrec : ({ getL lots i with
                quantity := (getL lots i).quantity - q,
                prev_lot := some lots.length } : Lot).toLotRec =
                { (getL lots i).toLotRec with
                  quantity := (getL lots i).toLotRec.quantity - q } := rfl
            cases hprev : (getL lots i).prev_lot with
            | some jj =>
              obtain ⟨hwfB, gB1, gB2, gB3⟩ := WF_split_insert_some
                { closeL d p (getL lots i) with quantity := q, next_lot := some i }
                { getL lots i with
                  quantity := (getL lots i).quantity - q,
                  prev_lot := some lots.length }
                _ hwf rfl rfl rfl rfl rfl hprev
              refine ⟨_, root, lots.length :: i :: rest, ?_, hwfB, ?_, ?_⟩
              · rw [hwalkeq, hprev, relinkAfterSplit]
              · simp only [List.map_cons, List.cons.injEq]
                refine ⟨by rw [gB3, hfrontrec], by rw [gB2, hredrec], ?_⟩
                apply List.map_congr_left
                intro j hj
                have hjlt : j < lots.length := hwf.2.1 j (by simp [hj])
                have hjne : j ≠ i := fun hc => hinotrest (hc ▸ hj)
                exact gB1 j hjlt hjne
              · intro j hj
                have hjlt : j < lots.length := hwf.2.1 j (by simp [hj])
                have hjne : j ≠ i := fun hc => hinotpre (hc ▸ hj)
                exact gB1 j hjlt hjne
            | none =>
              obtain ⟨hpre, hwfA⟩ := WF_split_insert_none
                { closeL d p (getL lots i) with quantity := q, next_lot := some i }
                { getL lots i with
                  quantity := (getL lots i).quantity - q,
                  prev_lot := some lots.length }
                _ hwf rfl rfl rfl rfl rfl hprev
              obtain ⟨hAlen, gA1, gA2, gA3⟩ := splitArena_getL hi
                (rfl : (lots.set i
                  { getL lots i with
                    quantity := (getL lots i).quantity - q,
                    prev_lot := some lots.length } ++
                  [{ closeL d p (getL lots i) with quantity := q, next_lot := some i }]) = _)
              refine ⟨lots.set i
                  { getL lots i with
                    quantity := (getL lots i).quantity - q,
                    prev_lot := some lots.length } ++
                  [{ closeL d p (getL lots i) with quantity := q, next_lot := some i }],
                lots.length, lots.length :: i :: rest, ?_, ?_, ?_, ?_⟩
              · rw [hwalkeq, hprev, relinkAfterSplit]
              · rw [hpre, List.nil_append]
                exact hwfA
              · simp only [List.map_cons, List.cons.injEq]
                refine ⟨by rw [gA3, hfrontrec], by rw [gA2, hredrec], ?_⟩
                apply List.map_congr_left
                intro j hj
                have hjlt : j < lots.length := hwf.2.1 j (by simp [hj])
                have hjne : j ≠ i := fun hc => hinotrest (hc ▸ hj)
                rw [gA1 j hjlt hjne]
              · intro j hj
                rw [hpre] at hj
                cases hj

/-! ### List-level facts about the FIFO walk -/

theorem fifoClose_nonpos (d : ℤ) (p : ℚ) {q : ℚ} (hq : q ≤ 0) :
    ∀ ls : List LotRec, fifoClose d p q ls = ls := by
  intro ls
  cases ls with
  | nil => rfl
  | cons l rest => rw [fifoClose, if_pos hq]

theorem closedBeforeOpen_tail {l : LotRec} {ls : List LotRec}
    (h : closedBeforeOpen (l :: ls)) : closedBeforeOpen ls :=
  (List.pairwise_cons.mp h).2

theorem closedBeforeOpen_all_open {l : LotRec} {ls : List LotRec}
    (h : closedBeforeOpen (l :: ls)) (hopen : l.sell_date = none) :
    ∀ b ∈ ls, b.sell_date = none := by
  intro b hb
  exact (List.pairwise_cons.mp h).1 b hb hopen

theorem sumOpenRecs_cons_closed {l : LotRec} {ls : List LotRec}
    (h : l.sell_date.isSome) : sumOpenRecs (l :: ls) = sumOpenRecs ls := by
  simp only [sumOpenRecs, List.map_cons, List.sum_cons]
  rw [if_neg (by simp [Option.isSome_iff_exists] at h; obtain ⟨a, ha⟩ := h; simp [ha])]
  ring

theorem sumOpenRecs_cons_open {l : LotRec} {ls : List LotRec}
    (h : l.sell_date = none) : sumOpenRecs (l :: ls) = l.quantity + sumOpenRecs ls := by
  simp only [sumOpenRecs, List.map_cons, List.sum_cons]
  rw [if_pos h]

/-- Under the closed-prefix invariant, a disposal within the available open
quantity succeeds, skipping the closed prefix and FIFO-consuming the open
tail. -/
theorem aWalk_eq_fifo (d : ℤ) (p : ℚ) :
    ∀ (ls : List LotRec) (q : ℚ), closedBeforeOpen ls → 0 ≤ q →
      q ≤ sumOpenRecs ls →
      aWalk d p q ls = .ok (ls.takeWhile closedB ++ fifoClose d p q (ls.dropWhile closedB)) := by
  intro ls
  induction ls with
  | nil =>
    intro q _ hq0 hqle
    have : q = 0 := le_antisymm (by simpa [sumOpenRecs] using hqle) hq0
    subst this
    rw [aWalk, if_pos le_rfl]
    rfl
  | cons l rest ih =>
    intro q hcbo hq0 hqle
    by_cases h0 : q ≤ 0
    · rw [aWalk, if_pos h0, fifoClose_nonpos d p h0, List.takeWhile_append_dropWhile]
    · rw [aWalk, if_neg h0]
      by_cases hsell : l.sell_date.isSome
      · rw [if_pos hsell]
        have hrec := ih q (closedBeforeOpen_tail hcbo) hq0
          (by rwa [sumOpenRecs_cons_closed hsell] at hqle)
        rw [hrec]
        rw [List.takeWhile_cons, List.dropWhile_cons]
        simp only [closedB, hsell, if_pos]
        rfl
      · rw [if_neg hsell]
        have hopen : l.sell_date = none := Option.not_isSome_iff_eq_none.mp hsell
        have htw : (l :: rest).takeWhile closedB = [] := by
          rw [List.takeWhile_cons]
          simp [closedB, hopen]
        have hdw : (l :: rest).dropWhile closedB = l :: rest := by
          rw [List.dropWhile_cons]
          simp [closedB, hopen]
        rw [htw, hdw, List.nil_append]
        by_cases hle : l.quantity ≤ q
        · rw [if_pos hle]
          have hallopen := closedBeforeOpen_all_open hcbo hopen
          have htw2 : rest.takeWhile closedB = [] := by
            cases rest with
            | nil => rfl
            | cons r0 rest' =>
              rw [List.takeWhile_cons]
              simp [closedB, hallopen r0 (by simp)]
          have hdw2 : rest.dropWhile closedB = rest := by
            cases rest with
            | nil => rfl
            | cons r0 rest' =>
              rw [List.dropWhile_cons]
              simp [closedB, hallopen r0 (by simp)]
          have hrec := ih (q - l.quantity) (closedBeforeOpen_tail hcbo) (by linarith)
            (by rw [sumOpenRecs_cons_open hopen] at hqle; linarith)
          rw [hrec, htw2, hdw2, List.nil_append]
          rw [fifoClose, if_neg h0, if_pos hle]
        · rw [if_neg hle]
          rw [fifoClose, if_neg h0, if_neg hle]

/-- A successful walk preserves the closed-prefix invariant. -/
theorem aWalk_closedBeforeOpen (d : ℤ) (p : ℚ) :
    ∀ (ls : List LotRec) (q : ℚ) (ls' : List LotRec),
      aWalk d p q ls = .ok ls' → closedBeforeOpen ls → closedBeforeOpen ls' := by
  intro ls
  induction ls with
  | nil =>
    intro q ls' h _
    rw [aWalk] at h
    by_cases h0 : q ≤ 0
    · rw [if_pos h0] at h
      simp only [Except.ok.injEq] at h
      subst h
      exact List.Pairwise.nil
    · rw [if_neg h0] at h; cases h
  | cons l rest ih =>
    intro q ls' h hcbo
    rw [aWalk] at h
    by_cases h0 : q ≤ 0
    · rw [if_pos h0] at h
      simp only [Except.ok.injEq] at h
      subst h
      exact hcbo
    · rw [if_neg h0] at h
      by_cases hsell : l.sell_date.isSome
      · rw [if_pos hsell] at h
        cases hrec : aWalk d p q rest with
        | error e => rw [hrec] at h; cases h
        | ok ls'' =>
          rw [hrec] at h
          simp only [Except.ok.injEq] at h
          subst h
          rw [closedBeforeOpen, List.pairwise_cons]
          refine ⟨?_, ih q ls'' hrec (closedBeforeOpen_tail hcbo)⟩
          intro b _ hlopen
          rw [hlopen] at hsell
          cases hsell
      · rw [if_neg hsell] at h
        have hopen : l.sell_date = none := Option.not_isSome_iff_eq_none.mp hsell
        have hallopen := closedBeforeOpen_all_open hcbo hopen
        by_cases hle : l.quantity ≤ q
        · rw [if_pos hle] at h
          cases hrec : aWalk d p (q - l.quantity) rest with
          | error e => rw [hrec] at h; cases h
          | ok ls'' =>
            rw [hrec] at h
            simp only [Except.ok.injEq] at h
            subst h
            rw [closedBeforeOpen, List.pairwise_cons]
            refine ⟨?_, ih _ ls'' hrec (closedBeforeOpen_tail hcbo)⟩
            intro b _ habs
            simp [closeRec] at habs
        · rw [if_neg hle] at h
          simp only [Except.ok.injEq] at h
          subst h
          rw [closedBeforeOpen, List.pairwise_cons]
          constructor
          · intro b _ habs
            simp [closeRec] at habs
          · rw [List.pairwise_cons]
            refine ⟨fun b hb _ => hallopen b hb, ?_⟩
            exact (List.pairwise_cons.mp hcbo).2

/-- A successful walk keeps every lot's sale date and sale price consistent
(both set or both unset). -/
theorem aWalk_sellConsistent (d : ℤ) (p : ℚ) :
    ∀ (ls : List LotRec) (q : ℚ) (ls' : List LotRec),
      aWalk d p q ls = .ok ls' → (∀ l ∈ ls, sellConsistent l) →
      ∀ l ∈ ls', sellConsistent l := by
  intro ls
  induction ls with
  | nil =>
    intro q ls' h _
    rw [aWalk] at h
    by_cases h0 : q ≤ 0
    · rw [if_pos h0] at h
      simp only [Except.ok.injEq] at h
      subst h
      intro l hl
      cases hl
    · rw [if_neg h0] at h; cases h
  | cons l rest ih =>
    intro q ls' h hsc
    rw [aWalk] at h
    by_cases h0 : q ≤ 0
    · rw [if_pos h0] at h
      simp only [Except.ok.injEq] at h
      subst h
      exact hsc
    · rw [if_neg h0] at h
      by_cases hsell : l.sell_date.isSome
      · rw [if_pos hsell] at h
        cases hrec : aWalk d p q rest with
        | error e => rw [hrec] at h; cases h
        | ok ls'' =>
          rw [hrec] at h
          simp only [Except.ok.injEq] at h
          subst h
          intro x hx
          rcases List.mem_cons.mp hx with rfl | hx
          · exact hsc x (by simp)
          · exact ih q ls'' hrec (fun y hy => hsc y (by simp [hy])) x hx
      · rw [if_neg hsell] at h
        by_cases hle : l.quantity ≤ q
        · rw [if_pos hle] at h
          cases hrec : aWalk d p (q - l.quantity) rest with
          | error e => rw [hrec] at h; cases h
          | ok ls'' =>
            rw [hrec] at h
            simp only [Except.ok.injEq] at h
            subst h
            intro x hx
            rcases List.mem_cons.mp hx with rfl | hx
            · simp [sellConsistent, closeRec]
            · exact ih _ ls'' hrec (fun y hy => hsc y (by simp [hy])) x hx
        · rw [if_neg hle] at h
          simp only [Except.ok.injEq] at h
          subst h
          intro x hx
          rcases List.mem_cons.mp hx with rfl | hx
          · simp [sellConsistent, closeRec]
          · rcases List.mem_cons.mp hx with rfl | hx
            · have := hsc l (by simp)
              simpa [sellConsistent] using this
            · exact hsc x (by simp [hx])

/-- Every lot a successful walk outputs has the purchase date of some input
lot (dates are never invented, only copied to split pieces). -/
theorem aWalk_dates_pred (d : ℤ) (p : ℚ) (P : ℤ → Prop) :
    ∀ (ls : List LotRec) (q : ℚ) (ls' : List LotRec),
      aWalk d p q ls = .ok ls' → (∀ l ∈ ls, P l.purchase_date) →
      ∀ l ∈ ls', P l.purchase_date := by
  intro ls
  induction ls with
  | nil =>
    intro q ls' h _
    rw [aWalk] at h
    by_cases h0 : q ≤ 0
    · rw [if_pos h0] at h
      simp only [Except.ok.injEq] at h
      subst h
      intro l hl
      cases hl
    · rw [if_neg h0] at h; cases h
  | cons l rest ih =>
    intro q ls' h hP
    rw [aWalk] at h
    by_cases h0 : q ≤ 0
    · rw [if_pos h0] at h
      simp only [Except.ok.injEq] at h
      subst h
      exact hP
    · rw [if_neg h0] at h
      by_cases hsell : l.sell_date.isSome
      · rw [if_pos hsell] at h
        cases hrec : aWalk d p q rest with
        | error e => rw [hrec] at h; cases h
        | ok ls'' =>
          rw [hrec] at h
          simp only [Except.ok.injEq] at h
          subst h
          intro x hx
          rcases List.mem_cons.mp hx with rfl | hx
          · exact hP x (by simp)
          · exact ih q ls'' hrec (fun y hy => hP y (by simp [hy])) x hx
      · rw [if_neg hsell] at h
        by_cases hle : l.quantity ≤ q
        · rw [if_pos hle] at h
          cases hrec : aWalk d p (q - l.quantity) rest with
          | error e => rw [hrec] at h; cases h
          | ok ls'' =>
            rw [hrec] at h
            simp only [Except.ok.injEq] at h
            subst h
            intro x hx
            rcases List.mem_cons.mp hx with rfl | hx
            · exact hP l (by simp)
            · exact ih _ ls'' hrec (fun y hy => hP y (by simp [hy])) x hx
        · rw [if_neg hle] at h
          simp only [Except.ok.injEq] at h
          subst h
          intro x hx
          rcases List.mem_cons.mp hx with rfl | hx
          · exact hP l (by simp)
          · rcases List.mem_cons.mp hx with rfl | hx
            · exact hP l (by simp)
            · exact hP x (by simp [hx])

/-- A successful walk keeps purchase dates non-decreasing along the chain. -/
theorem aWalk_datesMono (d : ℤ) (p : ℚ) :
    ∀ (ls : List LotRec) (q : ℚ) (ls' : List LotRec),
      aWalk d p q ls = .ok ls' → datesMono ls → datesMono ls' := by
  intro ls
  induction ls with
  | nil =>
    intro q ls' h _
    rw [aWalk] at h
    by_cases h0 : q ≤ 0
    · rw [if_pos h0] at h
      simp only [Except.ok.injEq] at h
      subst h
      exact List.Pairwise.nil
    · rw [if_neg h0] at h; cases h
  | cons l rest ih =>
    intro q ls' h hdm
    rw [aWalk] at h
    by_cases h0 : q ≤ 0
    · rw [if_pos h0] at h
      simp only [Except.ok.injEq] at h
      subst h
      exact hdm
    · rw [if_neg h0] at h
      obtain ⟨hhead, htail⟩ := List.pairwise_cons.mp hdm
      by_cases hsell : l.sell_date.isSome
      · rw [if_pos hsell] at h
        cases hrec : aWalk d p q rest with
        | error e => rw [hrec] at h; cases h
        | ok ls'' =>
          rw [hrec] at h
          simp only [Except.ok.injEq] at h
          subst h
          rw [datesMono, List.pairwise_cons]
          refine ⟨?_, ih q ls'' hrec htail⟩
          intro b hb
          exact aWalk_dates_pred d p (fun t => l.purchase_date ≤ t) rest q ls'' hrec hhead b hb
      · rw [if_neg hsell] at h
        by_cases hle : l.quantity ≤ q
        · rw [if_pos hle] at h
          cases hrec : aWalk d p (q - l.quantity) rest with
          | error e => rw [hrec] at h; cases h
          | ok ls'' =>
            rw [hrec] at h
            simp only [Except.ok.injEq] at h
            subst h
            rw [datesMono, List.pairwise_cons]
            refine ⟨?_, ih _ ls'' hrec htail⟩
            intro b hb
            exact aWalk_dates_pred d p (fun t => (closeRec d p l).purchase_date ≤ t)
              rest _ ls'' hrec hhead b hb
        · rw [if_neg hle] at h
          simp only [Except.ok.injEq] at h
          subst h
          rw [datesMono, List.pairwise_cons]
          constructor
          · intro b hb
            rcases List.mem_cons.mp hb with rfl | hb
            · exact le_refl _
            · exact hhead b hb
          · rw [List.pairwise_cons]
            exact ⟨fun b hb => hhead b hb, htail⟩

/-- From a pairwise relation, any two members are related one way or the
other (or are the same value). -/
theorem pairwise_cases {α : Type} {R : α → α → Prop} :
    ∀ {ls : List α}, List.Pairwise R ls → ∀ a ∈ ls, ∀ b ∈ ls,
      a = b ∨ R a b ∨ R b a := by
  intro ls
  induction ls with
  | nil => intro _ a ha; cases ha
  | cons x ls ih =>
    intro h a ha b hb
    obtain ⟨hx, htail⟩ := List.pairwise_cons.mp h
    rcases List.mem_cons.mp ha with ha | ha
    · rcases List.mem_cons.mp hb with hb | hb
      · exact Or.inl (ha.trans hb.symm)
      · exact Or.inr (Or.inl (by rw [ha]; exact hx b hb))
    · rcases List.mem_cons.mp hb with hb | hb
      · exact Or.inr (Or.inr (by rw [hb]; exact hx a ha))
      · exact ih htail a ha b hb

/-! ### Chain/arena bridges -/

theorem map_getL_range (lots : List Lot) :
    (List.range lots.length).map (getL lots) = lots := by
  apply List.ext_getElem (by simp)
  intro n h1 h2
  simp only [List.getElem_map, List.getElem_range]
  rw [getL, List.getD_eq_getElem _ _ h2]

theorem WF.chain_perm_range {lots : List Lot} {root head : ℕ} {chain : List ℕ}
    (h : WF lots root head chain) : chain.Perm (List.range lots.length) := by
  rw [List.perm_ext_iff_of_nodup h.1 (List.nodup_range _)]
  intro a
  simp only [List.mem_range]
  exact ⟨fun ha => h.2.1 a ha, fun ha => h.2.2.1 a ha⟩

theorem sumOpenRecs_chainRecs {lots : List Lot} {root head : ℕ} {chain : List ℕ}
    (h : WF lots root head chain) :
    sumOpenRecs (chainRecs lots chain) = sumOpen lots := by
  have h1 : sumOpenRecs (chainRecs lots chain) =
      (chain.map fun k => openContrib (getL lots k)).sum := by
    simp only [sumOpenRecs, chainRecs, List.map_map]
    congr 1
  have h2 : (chain.map fun k => openContrib (getL lots k)).Perm
      ((List.range lots.length).map fun k => openContrib (getL lots k)) :=
    (WF.chain_perm_range h).map _
  rw [h1, h2.sum_eq]
  have h3 : ((List.range lots.length).map fun k => openContrib (getL lots k)) =
      lots.map openContrib := by
    rw [show (fun k => openContrib (getL lots k)) = openContrib ∘ getL lots from rfl,
      ← List.map_map, map_getL_range]
  rw [h3, sumOpen_eq_map_sum]

/-- The full specification of a disposal within the available open quantity:
it succeeds, the closed prefix of the chain is untouched, the open tail is
FIFO-consumed (`fifoClose`), well-formedness is preserved with the head
unchanged, the running quantity is decremented, and afterwards every closed
lot's purchase date is at most every open lot's purchase date. -/
theorem disposeOp_fifo_spec (st : InstrState) (chain : List ℕ) (d : ℤ) (p : ℚ) (q : Dec)
    (hwf : WF st.lots st.root st.head chain)
    (hcbo : closedBeforeOpen (chainRecs st.lots chain))
    (hdates : datesMono (chainRecs st.lots chain))
    (hq0 : 0 ≤ q.toRat)
    (hqle : q.toRat ≤ sumOpen st.lots) :
    ∃ st' chain',
      disposeOp d p q (some st) = .ok (some st') ∧
      st'.head = st.head ∧
      st'.cq = decSub st.cq q ∧
      WF st'.lots st'.root st'.head chain' ∧
      chainRecs st'.lots chain' =
        (chainRecs st.lots chain).takeWhile closedB ++
          fifoClose d p q.toRat ((chainRecs st.lots chain).dropWhile closedB) ∧
      closedBeforeOpen (chainRecs st'.lots chain') ∧
      datesMono (chainRecs st'.lots chain') ∧
      (∀ a ∈ chainRecs st'.lots chain', ∀ b ∈ chainRecs st'.lots chain',
        a.sell_date.isSome → b.sell_date = none → a.purchase_date ≤ b.purchase_date) := by
  have hok : aWalk d p q.toRat (chainRecs st.lots chain) =
      .ok ((chainRecs st.lots chain).takeWhile closedB ++
        fifoClose d p q.toRat ((chainRecs st.lots chain).dropWhile closedB)) :=
    aWalk_eq_fifo d p _ _ hcbo hq0 (by rwa [sumOpenRecs_chainRecs hwf])
  have href := (disposeWalk_refines d p chain [] st.lots st.root st.head q.toRat
    (st.lots.length + 1) (by simpa using hwf)
    (Nat.lt_succ_of_le hwf.chain_length_le)).2 _ hok
  obtain ⟨lots', root', chain2, hwk, hwf', hmap, -⟩ := href
  have hhd : chain.head? = some st.root := hwf.2.2.2.1
  refine ⟨⟨lots', root', st.head, decSub st.cq q⟩, chain2, ?_, rfl, rfl, ?_, ?_, ?_, ?_, ?_⟩
  · rw [disposeOp]
    have : chain.head? = some st.root := hhd
    rw [show (some st.root : Option ℕ) = chain.head? from this.symm, hwk]
  · simpa using hwf'
  · rw [show chainRecs lots' chain2 = chain2.map (fun k => (getL lots' k).toLotRec) from rfl,
      hmap]
  · have := aWalk_closedBeforeOpen d p _ _ _ hok hcbo
    rw [show chainRecs lots' chain2 = chain2.map (fun k => (getL lots' k).toLotRec) from rfl,
      hmap]
    exact this
  · have := aWalk_datesMono d p _ _ _ hok hdates
    rw [show chainRecs lots' chain2 = chain2.map (fun k => (getL lots' k).toLotRec) from rfl,
      hmap]
    exact this
  · have hcbo' := aWalk_closedBeforeOpen d p _ _ _ hok hcbo
    have hdm' := aWalk_datesMono d p _ _ _ hok hdates
    rw [show chainRecs lots' chain2 = chain2.map (fun k => (getL lots' k).toLotRec) from rfl,
      hmap]
    intro a ha b hb hac hbo
    have hcomb := hcbo'.and hdm'
    rcases pairwise_cases hcomb a ha b hb with heq | hR | hR
    · rw [heq] at hac
      rw [hbo] at hac
      cases hac
    · exact hR.2
    · rw [hR.1 hbo] at hac
      cases hac

/-! ### Backward walks from the head -/

theorem takeWhile_congr {α : Type} {p q : α → Bool} :
    ∀ {l : List α}, (∀ x ∈ l, p x = q x) → l.takeWhile p = l.takeWhile q := by
  intro l
  induction l with
  | nil => intro _; rfl
  | cons x l ih =>
    intro h
    rw [List.takeWhile_cons, List.takeWhile_cons, h x (by simp)]
    by_cases hq : q x = true
    · simp only [if_pos hq]
      rw [ih (fun y hy => h y (by simp [hy]))]
    · simp only [if_neg hq]

theorem mem_takeWhile_mem {α : Type} {p : α → Bool} :
    ∀ {l : List α} {x : α}, x ∈ l.takeWhile p → x ∈ l := by
  intro l
  induction l with
  | nil => intro x hx; cases hx
  | cons a l ih =>
    intro x hx
    rw [List.takeWhile_cons] at hx
    by_cases hp : p a = true
    · rw [if_pos hp] at hx
      rcases List.mem_cons.mp hx with rfl | hx
      · simp
      · exact List.mem_cons_of_mem _ (ih hx)
    · rw [if_neg hp] at hx
      cases hx

/-- In a well-formed chain whose reverse is `rpre ++ k :: rrem`, lot `k`'s
`prev_lot` points at the head of `rrem` (and is `None` when `rrem` is empty,
i.e. `k` is the root). -/
theorem WF_prev_of_rev_cons {lots : List Lot} {root head : ℕ} {chain : List ℕ}
    {rpre rrem : List ℕ} {k : ℕ}
    (hwf : WF lots root head chain) (hrev : chain.reverse = rpre ++ k :: rrem) :
    (getL lots k).prev_lot = rrem.head? := by
  have hrch : List.Chain' (flip (Linked lots)) chain.reverse :=
    (@List.chain'_reverse ℕ (flip (Linked lots)) chain).mpr
      hwf.2.2.2.2.2.2.2
  rw [hrev] at hrch
  cases rrem with
  | nil =>
    have hhd : chain.head? = some k := by
      have := List.getLast?_reverse chain
      rw [hrev, List.getLast?_concat] at this
      exact this.symm
    have hroot : root = k := by
      have := hwf.2.2.2.1
      rw [hhd] at this
      simpa using this.symm
    rw [← hroot, hwf.2.2.2.2.2.1]
    rfl
  | cons m tail =>
    have hsub : List.Chain' (flip (Linked lots)) (k :: m :: tail) :=
      (List.chain'_append.mp hrch).2.1
    have hlk : Linked lots m k := (List.chain'_cons.mp hsub).1
    rw [hlk.2]
    rfl

/-- Specification of the `SPL` rescaling walk: with a nonzero ratio it
succeeds, scales exactly the open lots of the head-backward span up to (not
including) the first closed lot, and leaves every other lot untouched. -/
theorem splitWalk_spec (r : ℚ) (hr : r ≠ 0) :
    ∀ (rrem rpre : List ℕ) (lots : List Lot) (root head : ℕ) (chain : List ℕ) (fuel : ℕ),
      WF lots root head chain →
      chain.reverse = rpre ++ rrem →
      rrem.length < fuel →
      ∃ lots',
        splitWalk r fuel lots rrem.head? = .ok lots' ∧
        lots'.length = lots.length ∧
        (∀ j ∈ rrem.takeWhile (fun k => !(getL lots k).sell_date.isSome),
          getL lots' j = scaleLot r (getL lots j)) ∧
        (∀ j, j ∉ rrem.takeWhile (fun k => !(getL lots k).sell_date.isSome) →
          getL lots' j = getL lots j) := by
  intro rrem
  induction rrem with
  | nil =>
    intro rpre lots root head chain fuel _ _ hfuel
    obtain ⟨fuel, rfl⟩ : ∃ f, fuel = f + 1 := ⟨fuel - 1, by omega⟩
    refine ⟨lots, by rw [List.head?_nil, splitWalk], rfl, ?_, fun j _ => rfl⟩
    intro j hj
    cases hj
  | cons k rrem' ih =>
    intro rpre lots root head chain fuel hwf hrev hfuel
    obtain ⟨fuel, rfl⟩ : ∃ f, fuel = f + 1 := ⟨fuel - 1, by omega⟩
    have hkmem : k ∈ chain := by
      rw [← List.mem_reverse, hrev]
      simp
    have hk : k < lots.length := hwf.2.1 k hkmem
    have hknotin : k ∉ rrem' := by
      have hnd : chain.reverse.Nodup := List.nodup_reverse.mpr hwf.1
      rw [hrev] at hnd
      have := (List.nodup_append.mp hnd).2.1
      rw [List.nodup_cons] at this
      exact this.1
    have hprev : (getL lots k).prev_lot = rrem'.head? := WF_prev_of_rev_cons hwf hrev
    simp only [List.head?_cons]
    by_cases hsell : (getL lots k).sell_date.isSome
    · -- closed lot stops the walk
      have htw : (k :: rrem').takeWhile (fun j => !(getL lots j).sell_date.isSome) = [] := by
        rw [List.takeWhile_cons]
        simp [hsell]
      refine ⟨lots, ?_, rfl, ?_, fun j _ => rfl⟩
      · rw [splitWalk, if_pos hk, if_pos hsell]
      · rw [htw]
        intro j hj
        cases hj
    · have hopen : (getL lots k).sell_date = none := Option.not_isSome_iff_eq_none.mp hsell
      have hwf1 : WF (lots.set k (scaleLot r (getL lots k))) root head chain :=
        WF_set_same_links hk rfl rfl hwf
      have hih := ih (rpre ++ [k]) (lots.set k (scaleLot r (getL lots k))) root head chain
        fuel hwf1 (by rw [hrev, List.append_assoc, List.singleton_append]) (by
          simp only [List.length_cons] at hfuel; omega)
      obtain ⟨lots'', hwk, hlen, hscaled, hunch⟩ := hih
      have htwcongr : rrem'.takeWhile
          (fun j => !(getL (lots.set k (scaleLot r (getL lots k))) j).sell_date.isSome) =
          rrem'.takeWhile (fun j => !(getL lots j).sell_date.isSome) := by
        apply takeWhile_congr
        intro x hx
        rw [getL_set_ne _ (fun hc => hknotin (by rw [hc]; exact hx))]
      have htw : (k :: rrem').takeWhile (fun j => !(getL lots j).sell_date.isSome) =
          k :: rrem'.takeWhile (fun j => !(getL lots j).sell_date.isSome) := by
        rw [List.takeWhile_cons]
        simp [hopen]
      refine ⟨lots'', ?_, by rw [hlen, List.length_set], ?_, ?_⟩
      · rw [splitWalk, if_pos hk, if_neg hsell, if_neg hr, hprev]
        exact hwk
      · rw [htw]
        intro j hj
        rcases List.mem_cons.mp hj with rfl | hj
        · rw [hunch j (by rw [htwcongr]; intro hc; exact hknotin (mem_takeWhile_mem hc)),
            getL_set_self _ hk]
        · have hjk : j ≠ k := by
            intro hc
            exact hknotin (hc ▸ mem_takeWhile_mem hj)
          rw [hscaled j (by rw [htwcongr]; exact hj), getL_set_ne _ (fun hc => hjk hc.symm)]
      · rw [htw]
        intro j hj
        have hjk : j ≠ k := by
          intro hc
          exact hj (by rw [hc]; exact List.mem_cons_self _ _)
        have hjtw : j ∉ rrem'.takeWhile (fun j => !(getL lots j).sell_date.isSome) := by
          intro hc
          exact hj (List.mem_cons_of_mem _ hc)
        rw [hunch j (by rw [htwcongr]; exact hjtw), getL_set_ne _ (fun hc => hjk hc.symm)]

/-- Specification of the gains walk: from the head backward it accumulates,
over the span up to (not including) the first closed lot sold before the
period start, each closed lot's gain into the long-term bucket exactly when
the lot was held more than 365 days and into the short-term bucket otherwise;
open lots contribute nothing and do not stop the walk. -/
theorem gainsWalk_spec (start : ℤ) :
    ∀ (rrem rpre : List ℕ) (lots : List Lot) (root head : ℕ) (chain : List ℕ)
      (fuel : ℕ) (gl gs : ℚ),
      WF lots root head chain →
      chain.reverse = rpre ++ rrem →
      rrem.length < fuel →
      SellOk lots →
      gainsWalk start fuel lots rrem.head? gl gs =
        .ok (gl + ((gainsSpan start (rrem.map fun k => (getL lots k).toLotRec)).map
              longContrib).sum,
          gs + ((gainsSpan start (rrem.map fun k => (getL lots k).toLotRec)).map
              shortContrib).sum) := by
  intro rrem
  induction rrem with
  | nil =>
    intro rpre lots root head chain fuel gl gs _ _ hfuel _
    obtain ⟨fuel, rfl⟩ : ∃ f, fuel = f + 1 := ⟨fuel - 1, by omega⟩
    rw [List.head?_nil, gainsWalk]
    simp [gainsSpan]
  | cons k rrem' ih =>
    intro rpre lots root head chain fuel gl gs hwf hrev hfuel hsc
    obtain ⟨fuel, rfl⟩ : ∃ f, fuel = f + 1 := ⟨fuel - 1, by omega⟩
    have hkmem : k ∈ chain := by
      rw [← List.mem_reverse, hrev]
      simp
    have hk : k < lots.length := hwf.2.1 k hkmem
    have hprev : (getL lots k).prev_lot = rrem'.head? := WF_prev_of_rev_cons hwf hrev
    have hihgen := fun gl' gs' => ih (rpre ++ [k]) lots root head chain fuel gl' gs' hwf
      (by rw [hrev, List.append_assoc, List.singleton_append])
      (by simp only [List.length_cons] at hfuel; omega) hsc
    simp only [List.head?_cons, List.map_cons]
    cases hsell : (getL lots k).sell_date with
    | none =>
      have hspan : gainsSpan start ((getL lots k).toLotRec ::
          rrem'.map fun j => (getL lots j).toLotRec) =
          (getL lots k).toLotRec :: gainsSpan start (rrem'.map fun j => (getL lots j).toLotRec) := by
        rw [gainsSpan, List.takeWhile_cons, gainsSpan]
        have hnostop : ¬ stopsGains start (getL lots k).toLotRec := by
          rintro ⟨sd, hsd, -⟩
          rw [toLotRec_sell_date, hsell] at hsd
          cases hsd
        simp [hnostop]
      rw [hspan]
      have hlc : longContrib (getL lots k).toLotRec = 0 := by
        simp [longContrib, hsell]
      have hsc0 : shortContrib (getL lots k).toLotRec = 0 := by
        simp [shortContrib, hsell]
      rw [gainsWalk, if_pos hk, if_neg (by simp [hsell]), hprev, hihgen gl gs]
      simp [hlc, hsc0]
    | some sd =>
      by_cases hwin : start ≤ sd
      · -- closed, in the window: contributes and the walk continues
        have hpisSome : (getL lots k).sell_price.isSome := by
          have := hsc (getL lots k) (getL_mem hk)
          rw [hsell] at this
          exact this.mp (by simp)
        obtain ⟨sp, hsp⟩ := Option.isSome_iff_exists.mp hpisSome
        have hspan : gainsSpan start ((getL lots k).toLotRec ::
            rrem'.map fun j => (getL lots j).toLotRec) =
            (getL lots k).toLotRec ::
              gainsSpan start (rrem'.map fun j => (getL lots j).toLotRec) := by
          rw [gainsSpan, List.takeWhile_cons, gainsSpan]
          have hnostop : ¬ stopsGains start (getL lots k).toLotRec := by
            rintro ⟨sd', hsd', hlt⟩
            rw [toLotRec_sell_date, hsell] at hsd'
            cases hsd'
            omega
          simp [hnostop]
        rw [hspan]
        rw [gainsWalk, if_pos hk, if_pos (by simp [hsell]),
          if_pos (by rw [hsell]; simpa using hwin), if_pos hpisSome, hprev]
        by_cases hlong : 365 < sd - (getL lots k).purchase_date
        · have hcl : longContrib (getL lots k).toLotRec =
              ((getL lots k).sell_price.getD 0 - (getL lots k).purchase_price) *
                (getL lots k).quantity := by
            rw [longContrib, if_pos ⟨by simp [hsell], by
              simp [isLongTerm, hsell]; omega⟩]
            rfl
          have hcs : shortContrib (getL lots k).toLotRec = 0 := by
            rw [shortContrib, if_neg ?_]
            rintro ⟨-, habs⟩
            simp [isLongTerm, hsell] at habs
            omega
          rw [if_pos (by rw [hsell]; simpa using hlong),
            if_pos (by rw [hsell]; simpa using hlong), hihgen _ _]
          simp only [List.map_cons, List.sum_cons, hcl, hcs, Except.ok.injEq, Prod.mk.injEq]
          constructor <;> ring
        · have hcl : longContrib (getL lots k).toLotRec = 0 := by
            rw [longContrib, if_neg ?_]
            rintro ⟨-, habs⟩
            simp [isLongTerm, hsell] at habs
            omega
          have hcs : shortContrib (getL lots k).toLotRec =
              ((getL lots k).sell_price.getD 0 - (getL lots k).purchase_price) *
                (getL lots k).quantity := by
            rw [shortContrib, if_pos ⟨by simp [hsell], by
              simp [isLongTerm, hsell]; omega⟩]
            rfl
          rw [if_neg (by rw [hsell]; simpa using hlong),
            if_neg (by rw [hsell]; simpa using hlong), hihgen _ _]
          simp only [List.map_cons, List.sum_cons, hcl, hcs, Except.ok.injEq, Prod.mk.injEq]
          constructor <;> ring
      · -- closed, sold before the window: the walk stops here
        have hspan : gainsSpan start ((getL lots k).toLotRec ::
            rrem'.map fun j => (getL lots j).toLotRec) = [] := by
          rw [gainsSpan, List.takeWhile_cons]
          have hstop : stopsGains start (getL lots k).toLotRec :=
            ⟨sd, by simp [hsell], by omega⟩
          simp [hstop]
        rw [hspan]
        rw [gainsWalk, if_pos hk, if_pos (by simp [hsell]),
          if_neg (by rw [hsell]; simpa using hwin)]
        simp

/-- Walking forward via `next_lot` from any suffix of a well-formed chain
visits exactly that suffix. -/
theorem walkNexts_spec :
    ∀ (rem pre : List ℕ) (lots : List Lot) (root head : ℕ) (chain : List ℕ) (fuel : ℕ),
      WF lots root head chain →
      chain = pre ++ rem →
      rem.length < fuel →
      walkNexts fuel lots rem.head? = .ok rem := by
  intro rem
  induction rem with
  | nil =>
    intro pre lots root head chain fuel _ _ hfuel
    obtain ⟨fuel, rfl⟩ : ∃ f, fuel = f + 1 := ⟨fuel - 1, by omega⟩
    rw [List.head?_nil, walkNexts]
  | cons i rem' ih =>
    intro pre lots root head chain fuel hwf heq hfuel
    obtain ⟨fuel, rfl⟩ : ∃ f, fuel = f + 1 := ⟨fuel - 1, by omega⟩
    have hk : i < lots.length := hwf.2.1 i (by rw [heq]; simp)
    have hnext : (getL lots i).next_lot = rem'.head? :=
      WF_next_of_cons (by rw [← heq]; exact hwf)
    rw [List.head?_cons, walkNexts, if_pos hk, hnext,
      ih (pre ++ [i]) lots root head chain fuel hwf
        (by rw [heq, List.append_assoc, List.singleton_append])
        (by simp only [List.length_cons] at hfuel; omega)]

/-- Walking backward via `prev_lot` from any suffix of the reversed chain of
a well-formed state visits exactly that suffix. -/
theorem walkPrevs_spec :
    ∀ (rrem rpre : List ℕ) (lots : List Lot) (root head : ℕ) (chain : List ℕ) (fuel : ℕ),
      WF lots root head chain →
      chain.reverse = rpre ++ rrem →
      rrem.length < fuel →
      walkPrevs fuel lots rrem.head? = .ok rrem := by
  intro rrem
  induction rrem with
  | nil =>
    intro rpre lots root head chain fuel _ _ hfuel
    obtain ⟨fuel, rfl⟩ : ∃ f, fuel = f + 1 := ⟨fuel - 1, by omega⟩
    rw [List.head?_nil, walkPrevs]
  | cons k rrem' ih =>
    intro rpre lots root head chain fuel hwf hrev hfuel
    obtain ⟨fuel, rfl⟩ : ∃ f, fuel = f + 1 := ⟨fuel - 1, by omega⟩
    have hk : k < lots.length := hwf.2.1 k (by rw [← List.mem_reverse, hrev]; simp)
    have hprev : (getL lots k).prev_lot = rrem'.head? := WF_prev_of_rev_cons hwf hrev
    rw [List.head?_cons, walkPrevs, if_pos hk, hprev,
      ih (rpre ++ [k]) lots root head chain fuel hwf
        (by rw [hrev, List.append_assoc, List.singleton_append])
        (by simp only [List.length_cons] at hfuel; omega)]

/-- Specification of the `SPL` handler on a well-formed state with nonzero
running quantity and nonzero settled ratio: it succeeds, rescales exactly the
head-backward open span (quantity multiplied by the ratio, purchase price
divided by it), leaves every other lot and all links untouched, keeps root
and head, and multiplies the running quantity by the settled ratio. -/
theorem splitOp_spec (st : InstrState) (chain : List ℕ) (q o : Dec)
    (hwf : WF st.lots st.root st.head chain)
    (hcq : st.cq.toRat ≠ 0)
    (hr : (settledRatio st.cq q o).toRat ≠ 0) :
    ∃ st',
      splitOp q o (some st) = .ok (some st') ∧
      st'.root = st.root ∧ st'.head = st.head ∧
      st'.cq = decMul st.cq (settledRatio st.cq q o) ∧
      st'.lots.length = st.lots.length ∧
      (∀ j ∈ chain.reverse.takeWhile (fun k => !(getL st.lots k).sell_date.isSome),
        getL st'.lots j = scaleLot (settledRatio st.cq q o).toRat (getL st.lots j)) ∧
      (∀ j, j ∉ chain.reverse.takeWhile (fun k => !(getL st.lots k).sell_date.isSome) →
        getL st'.lots j = getL st.lots j) ∧
      WF st'.lots st'.root st'.head chain := by
  have hcur : chain.reverse.head? = some st.head := by
    rw [List.head?_reverse]
    exact hwf.2.2.2.2.1
  have hfuel : chain.reverse.length < st.lots.length + 1 := by
    rw [List.length_reverse]
    exact Nat.lt_succ_of_le hwf.chain_length_le
  obtain ⟨lots', hwalk, hlen, hscaled, hrest⟩ :=
    splitWalk_spec (settledRatio st.cq q o).toRat hr chain.reverse [] st.lots
      st.root st.head chain (st.lots.length + 1) hwf (by rw [List.nil_append]) hfuel
  rw [hcur] at hwalk
  refine ⟨⟨lots', st.root, st.head, decMul st.cq (settledRatio st.cq q o)⟩,
    ?_, rfl, rfl, rfl, hlen, hscaled, hrest, ?_⟩
  · rw [splitOp, if_neg hcq]
    simp only [hwalk]
  · apply WF_of_links_eq hlen ?_ hwf
    intro j
    by_cases hj : j ∈ chain.reverse.takeWhile (fun k => !(getL st.lots k).sell_date.isSome)
    · rw [hscaled j hj]
      exact ⟨rfl, rfl⟩
    · rw [hrest j hj]
      exact ⟨rfl, rfl⟩

/-! ### The structural replay invariant -/

theorem mem_iff_getL {lots : List Lot} {l : Lot} :
    l ∈ lots ↔ ∃ i, i < lots.length ∧ getL lots i = l := by
  constructor
  · intro h
    obtain ⟨i, hi, hl⟩ := List.mem_iff_getElem.mp h
    exact ⟨i, hi, by rw [getL_eq_of_getElem? (by rw [List.getElem?_eq_getElem hi, hl])]⟩
  · rintro ⟨i, hi, rfl⟩
    exact getL_mem hi

theorem sellOk_of_getL {lots : List Lot}
    (h : ∀ i, i < lots.length →
      ((getL lots i).sell_date.isSome ↔ (getL lots i).sell_price.isSome)) :
    SellOk lots := by
  intro l hl
  obtain ⟨i, hi, rfl⟩ := mem_iff_getL.mp hl
  exact h i hi

theorem sellConsistent_chainRecs {lots : List Lot} {chain : List ℕ}
    (hs : SellOk lots) (hmem : ∀ i ∈ chain, i < lots.length) :
    ∀ l ∈ chainRecs lots chain, sellConsistent l := by
  intro l hl
  obtain ⟨i, hi, rfl⟩ := List.mem_map.mp hl
  have := hs (getL lots i) (getL_mem (hmem i hi))
  simpa [sellConsistent] using this

theorem closedBeforeOpen_of_sell_eq {lots lots' : List Lot} {chain : List ℕ}
    (hsd : ∀ j, (getL lots' j).sell_date = (getL lots j).sell_date)
    (h : closedBeforeOpen (chainRecs lots chain)) :
    closedBeforeOpen (chainRecs lots' chain) := by
  unfold closedBeforeOpen chainRecs at h ⊢
  rw [List.pairwise_map] at h ⊢
  apply h.imp ?_
  intro a b hab
  simp only [toLotRec_sell_date, hsd] at hab ⊢
  exact hab

theorem acquireOp_StInv (pd : ℤ) (pp : ℚ) (q : Dec) (s : LState)
    (h : StInv s) : StInv (acquireOp pd pp q s) := by
  cases s with
  | none =>
    refine ⟨[0], ⟨by simp, by simp, ?_, rfl, rfl, rfl, rfl, List.chain'_singleton _⟩, ?_, ?_⟩
    · intro i hi
      simp only [List.length_cons, List.length_nil] at hi
      simp only [List.mem_singleton]
      omega
    · intro l hl
      simp only [List.mem_singleton] at hl
      subst hl
      simp
    · simp [closedBeforeOpen, chainRecs]
  | some st =>
    simp only [StInv] at h
    obtain ⟨chain, hwf, hsell, hcbo⟩ := h
    obtain ⟨st', hst', -, -, hlen, -, hwf', hpres, hnew⟩ := acquireOp_WF pd pp q hwf
    rw [hst']
    refine ⟨chain ++ [st.lots.length], hwf', ?_, ?_⟩
    · apply sellOk_of_getL
      intro i hi
      rw [hlen] at hi
      by_cases hic : i < st.lots.length
      · have hmem : i ∈ chain := hwf.2.2.1 i hic
        have h1 : (getL st'.lots i).sell_date = (getL st.lots i).sell_date := by
          rw [← toLotRec_sell_date, hpres i hmem, toLotRec_sell_date]
        have h2 : (getL st'.lots i).sell_price = (getL st.lots i).sell_price := by
          rw [← toLotRec_sell_price, hpres i hmem, toLotRec_sell_price]
        rw [h1, h2]
        exact hsell (getL st.lots i) (getL_mem hic)
      · have hieq : i = st.lots.length := by omega
        subst hieq
        have h1 : (getL st'.lots st.lots.length).sell_date = none := by
          rw [← toLotRec_sell_date, hnew]
        have h2 : (getL st'.lots st.lots.length).sell_price = none := by
          rw [← toLotRec_sell_price, hnew]
        rw [h1, h2]
        exact Iff.rfl
    · have hmapeq : chainRecs st'.lots (chain ++ [st.lots.length]) =
          chainRecs st.lots chain ++
            [{ purchase_date := pd, purchase_price := pp, quantity := q.toRat,
               sell_date := none, sell_price := none }] := by
        unfold chainRecs
        rw [List.map_append]
        congr 1
        · exact List.map_congr_left hpres
        · rw [List.map_singleton, hnew]
      rw [hmapeq]
      unfold closedBeforeOpen at hcbo ⊢
      rw [List.pairwise_append]
      refine ⟨hcbo, by simp, ?_⟩
      intro a _ b hb _
      simp only [List.mem_singleton] at hb
      rw [hb]

theorem disposeOp_StInv (d : ℤ) (p : ℚ) (q : Dec) (s s' : LState)
    (h : disposeOp d p q s = .ok s') (hinv : StInv s) : StInv s' := by
  cases s with
  | none => rw [disposeOp] at h; cases h
  | some st =>
    simp only [StInv] at hinv
    obtain ⟨chain, hwf, hsell, hcbo⟩ := hinv
    have href := disposeWalk_refines d p chain [] st.lots st.root st.head q.toRat
      (st.lots.length + 1) (by simpa using hwf) (Nat.lt_succ_of_le hwf.chain_length_le)
    have hhd : chain.head? = some st.root := hwf.2.2.2.1
    cases hres : aWalk d p q.toRat (chain.map fun k => (getL st.lots k).toLotRec) with
    | error e =>
      have hwk := href.1 e hres
      rw [disposeOp, show (some st.root : Option ℕ) = chain.head? from hhd.symm, hwk] at h
      cases h
    | ok ls' =>
      obtain ⟨lots', root', chain2, hwk, hwf', hmap, -⟩ := href.2 _ hres
      rw [disposeOp, show (some st.root : Option ℕ) = chain.head? from hhd.symm, hwk] at h
      simp only [Except.ok.injEq] at h
      subst h
      have hwf2 : WF lots' root' st.head chain2 := by simpa using hwf'
      have hcons : ∀ l ∈ ls', sellConsistent l :=
        aWalk_sellConsistent d p _ _ _ hres (sellConsistent_chainRecs hsell hwf.2.1)
      refine ⟨chain2, hwf2, ?_, ?_⟩
      · apply sellOk_of_getL
        intro i hi
        have hmem : i ∈ chain2 := hwf2.2.2.1 i hi
        have hrec : (getL lots' i).toLotRec ∈ ls' := by
          rw [← hmap]
          exact List.mem_map_of_mem _ hmem
        have := hcons _ hrec
        simpa [sellConsistent] using this
      · have := aWalk_closedBeforeOpen d p _ _ _ hres hcbo
        rw [show chainRecs lots' chain2 = chain2.map (fun k => (getL lots' k).toLotRec)
          from rfl, hmap]
        exact this

theorem splitWalk_ok_fields (r : ℚ) :
    ∀ (fuel : ℕ) (lots : List Lot) (cur : Option ℕ) (lots' : List Lot),
      splitWalk r fuel lots cur = .ok lots' →
      lots'.length = lots.length ∧
      ∀ j, (getL lots' j).prev_lot = (getL lots j).prev_lot ∧
        (getL lots' j).next_lot = (getL lots j).next_lot ∧
        (getL lots' j).sell_date = (getL lots j).sell_date ∧
        (getL lots' j).sell_price = (getL lots j).sell_price := by
  intro fuel
  induction fuel with
  | zero =>
    intro lots cur lots' h
    rw [splitWalk] at h
    cases h
  | succ fuel ih =>
    intro lots cur lots' h
    cases cur with
    | none =>
      rw [splitWalk] at h
      simp only [Except.ok.injEq] at h
      subst h
      exact ⟨rfl, fun j => ⟨rfl, rfl, rfl, rfl⟩⟩
    | some i =>
      rw [splitWalk] at h
      by_cases hi : i < lots.length
      · rw [if_pos hi] at h
        by_cases hs : (getL lots i).sell_date.isSome
        · rw [if_pos hs] at h
          simp only [Except.ok.injEq] at h
          subst h
          exact ⟨rfl, fun j => ⟨rfl, rfl, rfl, rfl⟩⟩
        · rw [if_neg hs] at h
          by_cases hr0 : r = 0
          · rw [if_pos hr0] at h
            cases h
          · rw [if_neg hr0] at h
            obtain ⟨hlen, hfields⟩ := ih _ _ _ h
            refine ⟨by rw [hlen, List.length_set], ?_⟩
            intro j
            obtain ⟨h1, h2, h3, h4⟩ := hfields j
            by_cases hji : j = i
            · subst hji
              rw [h1, h2, h3, h4, getL_set_self _ hi]
              exact ⟨rfl, rfl, rfl, rfl⟩
            · rw [h1, h2, h3, h4, getL_set_ne _ (Ne.symm hji)]
              exact ⟨rfl, rfl, rfl, rfl⟩
      · rw [if_neg hi] at h
        cases h

theorem splitOp_StInv (q o : Dec) (s s' : LState)
    (h : splitOp q o s = .ok s') (hinv : StInv s) : StInv s' := by
  cases s with
  | none => rw [splitOp] at h; cases h
  | some st =>
    simp only [StInv] at hinv
    obtain ⟨chain, hwf, hsell, hcbo⟩ := hinv
    simp only [splitOp] at h
    by_cases hcq : st.cq.toRat = 0
    · rw [if_pos hcq] at h
      cases h
    · rw [if_neg hcq] at h
      cases hw : splitWalk (settledRatio st.cq q o).toRat (st.lots.length + 1)
          st.lots (some st.head) with
      | error e =>
        rw [hw] at h
        cases h
      | ok lots' =>
        rw [hw] at h
        simp only [Except.ok.injEq] at h
        subst h
        obtain ⟨hlen, hfields⟩ := splitWalk_ok_fields _ _ _ _ _ hw
        refine ⟨chain, ?_, ?_, ?_⟩
        · exact WF_of_links_eq hlen (fun j => ⟨(hfields j).1, (hfields j).2.1⟩) hwf
        · apply sellOk_of_getL
          intro i hi
          rw [(hfields i).2.2.1, (hfields i).2.2.2]
          exact hsell (getL st.lots i) (getL_mem (by rw [hlen] at hi; exact hi))
        · exact closedBeforeOpen_of_sell_eq (fun j => (hfields j).2.2.1) hcbo

theorem stepOp_StInv (op : Op) (s s' : LState)
    (h : stepOp op s = .ok s') (hinv : StInv s) : StInv s' := by
  cases op with
  | acquire pd pp q =>
    rw [stepOp] at h
    simp only [Except.ok.injEq] at h
    subst h
    exact acquireOp_StInv pd pp q s hinv
  | dispose d p q => exact disposeOp_StInv d p q s s' h hinv
  | split q o => exact splitOp_StInv q o s s' h hinv

theorem replay_StInv :
    ∀ (ops : List Op) (s0 s : LState),
      replay ops s0 = .ok s → StInv s0 → StInv s := by
  intro ops
  induction ops with
  | nil =>
    intro s0 s h hinv
    rw [replay] at h
    simp only [Except.ok.injEq] at h
    subst h
    exact hinv
  | cons op ops ih =>
    intro s0 s h hinv
    rw [replay] at h
    cases hstep : stepOp op s0 with
    | error e =>
      rw [hstep] at h
      cases h
    | ok s1 =>
      rw [hstep] at h
      exact ih s1 s h (stepOp_StInv op s0 s1 hstep hinv)

/-! ### Exhaustion, coverage and totals helpers -/

theorem sumOpenRecs_nonneg {ls : List LotRec} (h : ∀ l ∈ ls, 0 ≤ l.quantity) :
    0 ≤ sumOpenRecs ls := by
  apply List.sum_nonneg
  intro x hx
  obtain ⟨l, hl, rfl⟩ := List.mem_map.mp hx
  by_cases hs : l.sell_date = none
  · rw [if_pos hs]
    exact h l hl
  · rw [if_neg hs]

/-- Disposing more than the aggregate open quantity always walks past the end
of the list and fails with the `AttributeError` of `None.sell_date`. -/
theorem aWalk_exhausts (d : ℤ) (p : ℚ) :
    ∀ (ls : List LotRec) (q : ℚ),
      (∀ l ∈ ls, 0 ≤ l.quantity) → sumOpenRecs ls < q →
      aWalk d p q ls = .error .attributeError := by
  intro ls
  induction ls with
  | nil =>
    intro q _ hlt
    have hq : ¬ q ≤ 0 := by
      simp only [sumOpenRecs, List.map_nil, List.sum_nil] at hlt
      exact not_le.mpr hlt
    rw [aWalk, if_neg hq]
  | cons l rest ih =>
    intro q hpos hlt
    have hrest0 : 0 ≤ sumOpenRecs rest :=
      sumOpenRecs_nonneg (fun x hx => hpos x (List.mem_cons_of_mem _ hx))
    have hl0 : 0 ≤ l.quantity := hpos l (List.mem_cons_self _ _)
    by_cases hs : l.sell_date = none
    · have hsum : sumOpenRecs (l :: rest) = l.quantity + sumOpenRecs rest :=
        sumOpenRecs_cons_open hs
      have hq : ¬ q ≤ 0 := by rw [hsum] at hlt; push_neg; nlinarith
      rw [aWalk, if_neg hq, if_neg (by simp [hs])]
      rw [if_pos (by rw [hsum] at hlt; nlinarith)]
      rw [ih (q - l.quantity) (fun x hx => hpos x (List.mem_cons_of_mem _ hx))
        (by rw [hsum] at hlt; linarith)]
    · have hsum : sumOpenRecs (l :: rest) = sumOpenRecs rest :=
        sumOpenRecs_cons_closed (Option.isSome_iff_ne_none.mpr hs)
      have hq : ¬ q ≤ 0 := by rw [hsum] at hlt; push_neg; linarith
      rw [aWalk, if_neg hq, if_pos (by simp [Option.isSome_iff_ne_none, hs])]
      rw [ih q (fun x hx => hpos x (List.mem_cons_of_mem _ hx)) (by rwa [hsum] at hlt)]

theorem takeWhile_eq_filter_of_pairwise {α : Type} {p : α → Bool} :
    ∀ {l : List α}, List.Pairwise (fun a b => p b = true → p a = true) l →
      l.takeWhile p = l.filter p := by
  intro l
  induction l with
  | nil => intro _; rfl
  | cons a l ih =>
    intro h
    rw [List.pairwise_cons] at h
    rw [List.takeWhile_cons, List.filter_cons]
    by_cases hp : p a = true
    · rw [if_pos hp, if_pos hp, ih h.2]
    · rw [if_neg hp, if_neg hp]
      rw [List.filter_eq_nil_iff.mpr (fun b hb hpb => hp (h.1 b hb hpb))]

/-- Unfolded form of the `Total`-row fold: given each instrument's walk
result, the combined totals are the sums of the per-instrument rounded
gains. -/
theorem foldTotals_spec (start : ℤ) :
    ∀ (sts : List InstrState) (prs : List (ℚ × ℚ)),
      List.Forall₂ (fun st pr =>
        gainsWalk start (st.lots.length + 1) st.lots (some st.head) 0 0 = .ok pr) sts prs →
      ∀ acc : ℚ × ℚ,
      List.foldlM
        (fun (acc : ℚ × ℚ) (st : InstrState) =>
          (match gainsWalk start (st.lots.length + 1) st.lots (some st.head) 0 0 with
          | Except.error e => Except.error e
          | Except.ok (gl, gs) =>
              Except.ok (acc.1 + roundCents gl, acc.2 + roundCents gs) :
            Except PyErr (ℚ × ℚ)))
        acc sts =
        Except.ok (acc.1 + (prs.map fun pr => roundCents pr.1).sum,
          acc.2 + (prs.map fun pr => roundCents pr.2).sum) := by
  intro sts prs h
  induction h with
  | nil =>
    intro acc
    show (Except.ok acc : Except PyErr (ℚ × ℚ)) = _
    simp
  | cons hrel htail ih =>
    intro acc
    rename_i st pr sts' prs'
    obtain ⟨gl, gs⟩ := pr
    rw [List.foldlM_cons]
    simp only [hrel]
    show List.foldlM _ (acc.1 + roundCents gl, acc.2 + roundCents gs) sts' = _
    rw [ih (acc.1 + roundCents gl, acc.2 + roundCents gs)]
    simp only [List.map_cons, List.sum_cons, Except.ok.injEq, Prod.mk.injEq]
    constructor <;> ring

/-! ### The claims -/

/-- C1: a disposal of positive quantity at most the aggregate open quantity
succeeds and consumes open lots strictly oldest-first: the chain's records
become the closed prefix unchanged followed by the FIFO closing of the open
tail — each open lot whose quantity is at most the remaining amount is closed
whole with the disposal's date and price, and a lot exceeding the remaining
amount is split at its chain position into a closed front piece holding
exactly the remaining amount (with the original purchase date and price)
followed by the reduced, still-open original; the head and the well-formed
doubly-linked structure are preserved, the running quantity drops by the
disposed quantity, and no lot with a later purchase date is ever closed while
an earlier open lot remains (every closed lot's purchase date is at most
every open lot's). -/
theorem claim_C1 (st : InstrState) (chain : List ℕ) (d : ℤ) (p : ℚ) (q : Dec)
    (hwf : WF st.lots st.root st.head chain)
    (hcbo : closedBeforeOpen (chainRecs st.lots chain))
    (hdates : datesMono (chainRecs st.lots chain))
    (hq0 : 0 < q.toRat)
    (hqle : q.toRat ≤ sumOpen st.lots) :
    ∃ st' chain',
      disposeOp d p q (some st) = .ok (some st') ∧
      st'.head = st.head ∧
      st'.cq = decSub st.cq q ∧
      WF st'.lots st'.root st'.head chain' ∧
      chainRecs st'.lots chain' =
        (chainRecs st.lots chain).takeWhile closedB ++
          fifoClose d p q.toRat ((chainRecs st.lots chain).dropWhile closedB) ∧
      (∀ a ∈ chainRecs st'.lots chain', ∀ b ∈ chainRecs st'.lots chain',
        a.sell_date.isSome → b.sell_date = none → a.purchase_date ≤ b.purchase_date) := by
  obtain ⟨st', chain', h1, h2, h3, h4, h5, -, -, h6⟩ :=
    disposeOp_fifo_spec st chain d p q hwf hcbo hdates (le_of_lt hq0) hqle
  exact ⟨st', chain', h1, h2, h3, h4, h5, h6⟩

theorem claim_C1_witness :
    WF [⟨0, 1, 2, none, none, none, some 1⟩, ⟨10, 2, 3, none, none, some 0, none⟩] 0 1
      [0, 1] ∧
    (0 : ℚ) < (⟨3, 0⟩ : Dec).toRat ∧
    (⟨3, 0⟩ : Dec).toRat ≤
      sumOpen [⟨0, 1, 2, none, none, none, some 1⟩, ⟨10, 2, 3, none, none, some 0, none⟩] ∧
    ∃ st' chain',
      disposeOp 7 4 ⟨3, 0⟩
        (some ⟨[⟨0, 1, 2, none, none, none, some 1⟩,
          ⟨10, 2, 3, none, none, some 0, none⟩], 0, 1, ⟨5, 0⟩⟩) = .ok (some st') ∧
      st'.head = 1 ∧
      st'.cq = decSub ⟨5, 0⟩ ⟨3, 0⟩ ∧
      WF st'.lots st'.root st'.head chain' :=
  ⟨by with_unfolding_all decide, by with_unfolding_all decide, by with_unfolding_all decide, by
    obtain ⟨st', chain', h1, h2, h3, h4, -, -⟩ :=
      claim_C1 ⟨[⟨0, 1, 2, none, none, none, some 1⟩,
        ⟨10, 2, 3, none, none, some 0, none⟩], 0, 1, ⟨5, 0⟩⟩ [0, 1] 7 4 ⟨3, 0⟩
        (by with_unfolding_all decide) (by with_unfolding_all decide) (by with_unfolding_all decide) (by with_unfolding_all decide) (by with_unfolding_all decide)
    exact ⟨st', chain', h1, h2, h3, h4⟩⟩

/-- C2: conservation — replaying any chronological sequence of acquisitions
and disposals (all of positive quantity) from the empty state keeps the sum
of the open lots' quantities equal to the running current quantity; moreover
each acquisition increases both by the acquired quantity (the running
quantity being initialized to `0` on a first acquisition) and each successful
disposal decreases both by the disposed quantity. -/
theorem claim_C2 (ops : List Op) (s : LState)
    (hops : ∀ op ∈ ops, op.isAcqOrDisp ∧ op.posQty)
    (hrep : replay ops none = .ok s) :
    sumOpenS s = cqS s ∧
    (∀ (pd : ℤ) (pp : ℚ) (q : Dec) (t : LState),
      sumOpenS (acquireOp pd pp q t) = sumOpenS t + q.toRat ∧
      cqS (acquireOp pd pp q t) = cqS t + q.toRat) ∧
    (∀ (d : ℤ) (pr : ℚ) (q : Dec) (t t' : LState), 0 ≤ q.toRat →
      disposeOp d pr q t = .ok t' →
      sumOpenS t' = sumOpenS t - q.toRat ∧ cqS t' = cqS t - q.toRat) := by
  refine ⟨replay_conserves ops none s hops hrep rfl, ?_, ?_⟩
  · intro pd pp q t
    exact acquire_deltas pd pp q t
  · intro d pr q t t' hq h
    exact dispose_deltas d pr q t t' hq h

theorem claim_C2_witness :
    (∀ op ∈ [Op.acquire 0 1 ⟨2, 0⟩, Op.dispose 5 2 ⟨1, 0⟩],
      op.isAcqOrDisp ∧ op.posQty) ∧
    replay [Op.acquire 0 1 ⟨2, 0⟩, Op.dispose 5 2 ⟨1, 0⟩] none =
      .ok (some ⟨[⟨0, 1, 1, none, none, some 1, none⟩,
        ⟨0, 1, 1, some 5, some 2, none, some 0⟩], 1, 0, ⟨1, 0⟩⟩) ∧
    sumOpenS (some ⟨[⟨0, 1, 1, none, none, some 1, none⟩,
        ⟨0, 1, 1, some 5, some 2, none, some 0⟩], 1, 0, ⟨1, 0⟩⟩) =
      cqS (some ⟨[⟨0, 1, 1, none, none, some 1, none⟩,
        ⟨0, 1, 1, some 5, some 2, none, some 0⟩], 1, 0, ⟨1, 0⟩⟩) := by
  have hrep : replay [Op.acquire 0 1 ⟨2, 0⟩, Op.dispose 5 2 ⟨1, 0⟩] none =
      .ok (some ⟨[⟨0, 1, 1, none, none, some 1, none⟩,
        ⟨0, 1, 1, some 5, some 2, none, some 0⟩], 1, 0, ⟨1, 0⟩⟩) := by
    with_unfolding_all decide
  exact ⟨by with_unfolding_all decide, hrep,
    (claim_C2 [Op.acquire 0 1 ⟨2, 0⟩, Op.dispose 5 2 ⟨1, 0⟩] _
      (by with_unfolding_all decide) hrep).1⟩

/-- C3: a split on a state with positive running quantity and nonzero settled
ratio walks the chain from the head backward, multiplies the quantity of
every open lot encountered before the first closed lot by the ratio and
divides its purchase price by the ratio — leaving each adjusted lot's cost
basis (quantity times price) unchanged — modifies no other lot, keeps root
and head, and multiplies the running quantity by the ratio (it does not add
the received shares). -/
theorem claim_C3 (st : InstrState) (chain : List ℕ) (q o : Dec)
    (hwf : WF st.lots st.root st.head chain)
    (hcq : 0 < st.cq.toRat)
    (hr : (settledRatio st.cq q o).toRat ≠ 0) :
    ∃ st',
      splitOp q o (some st) = .ok (some st') ∧
      st'.root = st.root ∧ st'.head = st.head ∧
      (∀ j ∈ chain.reverse.takeWhile (fun k => !(getL st.lots k).sell_date.isSome),
        (getL st'.lots j).quantity =
          (getL st.lots j).quantity * (settledRatio st.cq q o).toRat ∧
        (getL st'.lots j).purchase_price =
          (getL st.lots j).purchase_price / (settledRatio st.cq q o).toRat ∧
        (getL st'.lots j).quantity * (getL st'.lots j).purchase_price =
          (getL st.lots j).quantity * (getL st.lots j).purchase_price) ∧
      (∀ j, j ∉ chain.reverse.takeWhile (fun k => !(getL st.lots k).sell_date.isSome) →
        getL st'.lots j = getL st.lots j) ∧
      cqS (some st') = cqS (some st) * (settledRatio st.cq q o).toRat := by
  obtain ⟨st', h1, h2, h3, h4, -, h6, h7, -⟩ :=
    splitOp_spec st chain q o hwf (ne_of_gt hcq) hr
  refine ⟨st', h1, h2, h3, ?_, h7, ?_⟩
  · intro j hj
    rw [h6 j hj]
    refine ⟨rfl, rfl, ?_⟩
    show (getL st.lots j).quantity * (settledRatio st.cq q o).toRat *
      ((getL st.lots j).purchase_price / (settledRatio st.cq q o).toRat) = _
    field_simp
    ring
  · show st'.cq.toRat = st.cq.toRat * (settledRatio st.cq q o).toRat
    rw [h4, toRat_decMul]

theorem claim_C3_witness :
    WF [⟨0, 1, 2, none, none, none, some 1⟩, ⟨10, 2, 3, none, none, some 0, none⟩] 0 1
      [0, 1] ∧
    (0 : ℚ) < (⟨5, 0⟩ : Dec).toRat ∧
    (settledRatio ⟨5, 0⟩ ⟨5, 0⟩ ⟨1, 0⟩).toRat ≠ 0 ∧
    ∃ st',
      splitOp ⟨5, 0⟩ ⟨1, 0⟩
        (some ⟨[⟨0, 1, 2, none, none, none, some 1⟩,
          ⟨10, 2, 3, none, none, some 0, none⟩], 0, 1, ⟨5, 0⟩⟩) = .ok (some st') ∧
      st'.root = 0 ∧ st'.head = 1 ∧
      cqS (some st') = 5 * (settledRatio ⟨5, 0⟩ ⟨5, 0⟩ ⟨1, 0⟩).toRat :=
  ⟨by with_unfolding_all decide, by with_unfolding_all decide, by with_unfolding_all decide, by
    obtain ⟨st', h1, h2, h3, -, -, h6⟩ :=
      claim_C3 ⟨[⟨0, 1, 2, none, none, none, some 1⟩,
        ⟨10, 2, 3, none, none, some 0, none⟩], 0, 1, ⟨5, 0⟩⟩ [0, 1] ⟨5, 0⟩ ⟨1, 0⟩
        (by with_unfolding_all decide) (by with_unfolding_all decide) (by with_unfolding_all decide)
    exact ⟨st', h1, h2, h3, by rw [h6]; with_unfolding_all decide⟩⟩

/-- C4 (amended): disposing more than the aggregate open quantity is never
silently absorbed — on an instrument with lots it raises the bare
`AttributeError` of following the last lot's `None` link, and on an
instrument with no state it raises `KeyError`; but the raised error is a
plain exception value carrying no instrument, date or shortfall
information. -/
theorem claim_C4 (st : InstrState) (chain : List ℕ) (d : ℤ) (p : ℚ) (q : Dec)
    (hwf : WF st.lots st.root st.head chain)
    (hpos : PosQ st.lots)
    (hgt : sumOpen st.lots < q.toRat) :
    disposeOp d p q (some st) = .error .attributeError ∧
    disposeOp d p q none = .error .keyError := by
  refine ⟨?_, rfl⟩
  have hq : ∀ l ∈ (chain.map fun k => (getL st.lots k).toLotRec), 0 ≤ l.quantity := by
    intro l hl
    obtain ⟨i, hi, rfl⟩ := List.mem_map.mp hl
    have := hpos (getL st.lots i) (getL_mem (hwf.2.1 i hi))
    simpa using le_of_lt this
  have herr : aWalk d p q.toRat (chain.map fun k => (getL st.lots k).toLotRec) =
      .error .attributeError :=
    aWalk_exhausts d p _ _ hq
      (show sumOpenRecs (chainRecs st.lots chain) < q.toRat by
        rwa [sumOpenRecs_chainRecs hwf])
  have hwk := (disposeWalk_refines d p chain [] st.lots st.root st.head q.toRat
    (st.lots.length + 1) (by simpa using hwf) (Nat.lt_succ_of_le hwf.chain_length_le)).1
    _ herr
  rw [disposeOp, show (some st.root : Option ℕ) = chain.head? from hwf.2.2.2.1.symm, hwk]

/-- Witness for C4: a one-lot instrument holding quantity 1 rejects a
disposal of 2 with the bare `AttributeError`. -/
theorem claim_C4_witness :
    WF [⟨0, 1, 1, none, none, none, none⟩] 0 0 [0] ∧
    PosQ [⟨0, 1, 1, none, none, none, none⟩] ∧
    sumOpen [⟨0, 1, 1, none, none, none, none⟩] < (⟨2, 0⟩ : Dec).toRat ∧
    disposeOp 3 4 ⟨2, 0⟩ (some ⟨[⟨0, 1, 1, none, none, none, none⟩], 0, 0, ⟨1, 0⟩⟩) =
      .error .attributeError :=
  ⟨by with_unfolding_all decide, by with_unfolding_all decide, by with_unfolding_all decide,
    (claim_C4 ⟨[⟨0, 1, 1, none, none, none, none⟩], 0, 0, ⟨1, 0⟩⟩ [0] 3 4 ⟨2, 0⟩
      (by with_unfolding_all decide) (by with_unfolding_all decide)
      (by with_unfolding_all decide)).1⟩

/-- Counterexample to C4 as stated: two over-disposals with different dates
and different shortfalls raise the very same error value, so the error
identifies neither the date nor the shortfall amount. -/
theorem claim_C4_counterexample :
    disposeOp 0 0 ⟨2, 0⟩ (some ⟨[⟨0, 1, 1, none, none, none, none⟩], 0, 0, ⟨1, 0⟩⟩) =
      .error .attributeError ∧
    disposeOp 99 7 ⟨50, 0⟩ (some ⟨[⟨0, 1, 1, none, none, none, none⟩], 0, 0, ⟨1, 0⟩⟩) =
      .error .attributeError ∧
    disposeOp 0 0 ⟨2, 0⟩ (some ⟨[⟨0, 1, 1, none, none, none, none⟩], 0, 0, ⟨1, 0⟩⟩) =
      disposeOp 99 7 ⟨50, 0⟩ (some ⟨[⟨0, 1, 1, none, none, none, none⟩], 0, 0, ⟨1, 0⟩⟩) := by
  refine ⟨?_, ?_, ?_⟩ <;> with_unfolding_all decide

/-- C5 (amended): a split on an instrument with no state raises `KeyError`,
and one on a zero running quantity raises the `Decimal` division error
(`InvalidOperation` when the dividend is zero too, `DivisionByZero`
otherwise); with a well-formed chain, nonzero running quantity and nonzero
settled ratio the split completes without error. -/
theorem claim_C5 (q o : Dec) (st : InstrState) (chain : List ℕ)
    (hwf : WF st.lots st.root st.head chain) :
    splitOp q o none = .error .keyError ∧
    (st.cq.toRat = 0 →
      splitOp q o (some st) =
        .error (if (decAdd st.cq q).toRat = 0 then .invalidOperation else .divisionByZero)) ∧
    (st.cq.toRat ≠ 0 → (settledRatio st.cq q o).toRat ≠ 0 →
      ∃ st', splitOp q o (some st) = .ok (some st')) := by
  refine ⟨rfl, ?_, ?_⟩
  · intro h0
    rw [splitOp, if_pos h0]
  · intro hcq hr
    obtain ⟨st', h1, -⟩ := splitOp_spec st chain q o hwf hcq hr
    exact ⟨st', h1⟩

/-- Witness for C5: on a two-open-lot instrument with running quantity 5 a
split succeeds, while an instrument with no state gets `KeyError`. -/
theorem claim_C5_witness :
    WF [⟨0, 1, 2, none, none, none, some 1⟩, ⟨10, 2, 3, none, none, some 0, none⟩] 0 1
      [0, 1] ∧
    splitOp ⟨5, 0⟩ ⟨1, 0⟩ none = .error .keyError ∧
    ((⟨5, 0⟩ : Dec).toRat ≠ 0 → (settledRatio ⟨5, 0⟩ ⟨5, 0⟩ ⟨1, 0⟩).toRat ≠ 0 →
      ∃ st', splitOp ⟨5, 0⟩ ⟨1, 0⟩
        (some ⟨[⟨0, 1, 2, none, none, none, some 1⟩,
          ⟨10, 2, 3, none, none, some 0, none⟩], 0, 1, ⟨5, 0⟩⟩) = .ok (some st')) := by
  have h := claim_C5 ⟨5, 0⟩ ⟨1, 0⟩
    ⟨[⟨0, 1, 2, none, none, none, some 1⟩,
      ⟨10, 2, 3, none, none, some 0, none⟩], 0, 1, ⟨5, 0⟩⟩ [0, 1]
    (by with_unfolding_all decide)
  exact ⟨by with_unfolding_all decide, h.1, h.2.2⟩

/-- Counterexample to C5 as stated: a split on an instrument that was never
acquired raises `KeyError`, and one on a zero running quantity raises the
`Decimal` division error — the operation does have error conditions beyond
the override input. -/
theorem claim_C5_counterexample :
    splitOp ⟨1, 0⟩ ⟨1, 0⟩ none = .error .keyError ∧
    splitOp ⟨1, 0⟩ ⟨1, 0⟩ (some ⟨[], 0, 0, ⟨0, 0⟩⟩) = .error .divisionByZero := by
  exact ⟨rfl, by with_unfolding_all decide⟩

/-- C6: the override path is taken exactly when the computed ratio
`(cq + q) / cq` has more than one decimal digit; the ratio actually used for
all rescaling — every open lot's adjustment and the running-quantity
update — is the operator-supplied override on that path and the computed
ratio otherwise. -/
theorem claim_C6 (st : InstrState) (chain : List ℕ) (q o : Dec)
    (hwf : WF st.lots st.root st.head chain)
    (hcq : st.cq.toRat ≠ 0) :
    (1 < count_decimal_places (computedRatio st.cq q) →
      settledRatio st.cq q o = o ∧
      (o.toRat ≠ 0 → ∃ st',
        splitOp q o (some st) = .ok (some st') ∧
        st'.cq = decMul st.cq o ∧
        (∀ j ∈ chain.reverse.takeWhile (fun k => !(getL st.lots k).sell_date.isSome),
          getL st'.lots j = scaleLot o.toRat (getL st.lots j)))) ∧
    (¬ 1 < count_decimal_places (computedRatio st.cq q) →
      settledRatio st.cq q o = computedRatio st.cq q ∧
      ((computedRatio st.cq q).toRat ≠ 0 → ∃ st',
        splitOp q o (some st) = .ok (some st') ∧
        st'.cq = decMul st.cq (computedRatio st.cq q) ∧
        (∀ j ∈ chain.reverse.takeWhile (fun k => !(getL st.lots k).sell_date.isSome),
          getL st'.lots j = scaleLot (computedRatio st.cq q).toRat (getL st.lots j)))) := by
  constructor
  · intro hdp
    have hs : settledRatio st.cq q o = o := by rw [settledRatio, if_pos hdp]
    refine ⟨hs, ?_⟩
    intro ho
    obtain ⟨st', h1, -, -, h4, -, h6, -, -⟩ :=
      splitOp_spec st chain q o hwf hcq (by rwa [hs])
    rw [hs] at h4 h6
    exact ⟨st', h1, h4, h6⟩
  · intro hdp
    have hs : settledRatio st.cq q o = computedRatio st.cq q := by
      rw [settledRatio, if_neg hdp]
    refine ⟨hs, ?_⟩
    intro hc
    obtain ⟨st', h1, -, -, h4, -, h6, -, -⟩ :=
      splitOp_spec st chain q o hwf hcq (by rwa [hs])
    rw [hs] at h4 h6
    exact ⟨st', h1, h4, h6⟩

set_option maxRecDepth 8000 in
/-- Witness for C6: a computed ratio of 1.25 (two decimal digits) takes the
override path and the override ratio 1.5 drives the rescaling and the
running-quantity update. -/
theorem claim_C6_witness :
    WF [⟨0, 1, 2, none, none, none, some 1⟩, ⟨10, 2, 3, none, none, some 0, none⟩] 0 1
      [0, 1] ∧
    (⟨4, 0⟩ : Dec).toRat ≠ 0 ∧
    1 < count_decimal_places (computedRatio ⟨4, 0⟩ ⟨1, 0⟩) ∧
    (⟨15, -1⟩ : Dec).toRat ≠ 0 ∧
    ∃ st',
      splitOp ⟨1, 0⟩ ⟨15, -1⟩
        (some ⟨[⟨0, 1, 2, none, none, none, some 1⟩,
          ⟨10, 2, 3, none, none, some 0, none⟩], 0, 1, ⟨4, 0⟩⟩) = .ok (some st') ∧
      st'.cq = decMul ⟨4, 0⟩ ⟨15, -1⟩ := by
  refine ⟨by with_unfolding_all decide, by with_unfolding_all decide,
    by with_unfolding_all decide, by with_unfolding_all decide, ?_⟩
  obtain ⟨-, himp⟩ := (claim_C6
    ⟨[⟨0, 1, 2, none, none, none, some 1⟩,
      ⟨10, 2, 3, none, none, some 0, none⟩], 0, 1, ⟨4, 0⟩⟩ [0, 1] ⟨1, 0⟩ ⟨15, -1⟩
    (by with_unfolding_all decide) (by with_unfolding_all decide)).1
    (by with_unfolding_all decide)
  obtain ⟨st', h1, h2, -⟩ := himp (by with_unfolding_all decide)
  exact ⟨st', h1, h2⟩

/-- C7: on a finalized well-formed ledger the gains walk from the head
backward returns, without error, exactly the two bucket sums over the span
up to the first closed lot sold before the period start — each closed
in-window lot contributing `(sell price - purchase price) * quantity` to the
long-term bucket exactly when held strictly more than 365 days and to the
short-term bucket otherwise, open lots contributing nothing and never
stopping the walk. -/
theorem claim_C7 (lots : List Lot) (root head : ℕ) (chain : List ℕ) (start : ℤ)
    (hwf : WF lots root head chain) (hsell : SellOk lots) :
    gainsWalk start (lots.length + 1) lots (some head) 0 0 =
      .ok (((gainsSpan start (chainRecs lots chain).reverse).map longContrib).sum,
        ((gainsSpan start (chainRecs lots chain).reverse).map shortContrib).sum) := by
  have h := gainsWalk_spec start chain.reverse [] lots root head chain
    (lots.length + 1) 0 0 hwf (by rw [List.nil_append])
    (by rw [List.length_reverse]; exact Nat.lt_succ_of_le hwf.chain_length_le) hsell
  rw [List.head?_reverse, hwf.2.2.2.2.1] at h
  rw [h]
  simp only [List.map_reverse, zero_add]
  rfl

/-- Witness for C7: one long-term closed lot and one open lot; the walk
returns the closed lot's gain in the long-term bucket. -/
theorem claim_C7_witness :
    WF [⟨0, 1, 2, some 400, some 3, none, some 1⟩, ⟨500, 2, 3, none, none, some 0, none⟩]
      0 1 [0, 1] ∧
    SellOk [⟨0, 1, 2, some 400, some 3, none, some 1⟩,
      ⟨500, 2, 3, none, none, some 0, none⟩] ∧
    gainsWalk 0
        (([⟨0, 1, 2, some 400, some 3, none, some 1⟩,
          ⟨500, 2, 3, none, none, some 0, none⟩] : List Lot).length + 1)
        [⟨0, 1, 2, some 400, some 3, none, some 1⟩,
          ⟨500, 2, 3, none, none, some 0, none⟩] (some 1) 0 0 =
      .ok (((gainsSpan 0 (chainRecs
          [⟨0, 1, 2, some 400, some 3, none, some 1⟩,
            ⟨500, 2, 3, none, none, some 0, none⟩] [0, 1]).reverse).map longContrib).sum,
        ((gainsSpan 0 (chainRecs
          [⟨0, 1, 2, some 400, some 3, none, some 1⟩,
            ⟨500, 2, 3, none, none, some 0, none⟩] [0, 1]).reverse).map shortContrib).sum) :=
  ⟨by with_unfolding_all decide, by with_unfolding_all decide,
    claim_C7 _ 0 1 [0, 1] 0 (by with_unfolding_all decide) (by with_unfolding_all decide)⟩

/-- C8: after replaying any transaction sequence from the empty state, the
root-to-head walk along `next_lot` and the head-to-root walk along
`prev_lot` both terminate without error, visit every lot of the arena
exactly once, and traverse the same lots in exactly reverse order of each
other. -/
theorem claim_C8 (ops : List Op) (st : InstrState)
    (hrep : replay ops none = .ok (some st)) :
    ∃ chain,
      walkNexts (st.lots.length + 1) st.lots (some st.root) = .ok chain ∧
      walkPrevs (st.lots.length + 1) st.lots (some st.head) = .ok chain.reverse ∧
      chain.Nodup ∧ (∀ i, i ∈ chain ↔ i < st.lots.length) := by
  have hinv := replay_StInv ops none (some st) hrep trivial
  simp only [StInv] at hinv
  obtain ⟨chain, hwf, -, -⟩ := hinv
  refine ⟨chain, ?_, ?_, hwf.1, fun i => ⟨hwf.2.1 i, hwf.2.2.1 i⟩⟩
  · have h := walkNexts_spec chain [] st.lots st.root st.head chain (st.lots.length + 1)
      hwf (by rw [List.nil_append]) (Nat.lt_succ_of_le hwf.chain_length_le)
    rwa [hwf.2.2.2.1] at h
  · have h := walkPrevs_spec chain.reverse [] st.lots st.root st.head chain
      (st.lots.length + 1) hwf (by rw [List.nil_append])
      (by rw [List.length_reverse]; exact Nat.lt_succ_of_le hwf.chain_length_le)
    rwa [List.head?_reverse, hwf.2.2.2.2.1] at h

/-- Witness for C8: replay one acquisition; both walks succeed and cover the
one-lot arena. -/
theorem claim_C8_witness :
    replay [Op.acquire 0 1 ⟨1, 0⟩] none =
      .ok (some ⟨[⟨0, 1, 1, none, none, none, none⟩], 0, 0, ⟨1, 0⟩⟩) ∧
    ∃ chain,
      walkNexts 2 [⟨0, 1, 1, none, none, none, none⟩] (some 0) = .ok chain ∧
      walkPrevs 2 [⟨0, 1, 1, none, none, none, none⟩] (some 0) = .ok chain.reverse ∧
      chain.Nodup ∧ (∀ i, i ∈ chain ↔ i < 1) := by
  have hrep : replay [Op.acquire 0 1 ⟨1, 0⟩] none =
      .ok (some ⟨[⟨0, 1, 1, none, none, none, none⟩], 0, 0, ⟨1, 0⟩⟩) := by
    with_unfolding_all decide
  exact ⟨hrep, claim_C8 [Op.acquire 0 1 ⟨1, 0⟩] _ hrep⟩

theorem centsToString_ne_empty (n : ℤ) : centsToString n ≠ "" := by
  intro h
  have hl := congrArg String.length h
  simp only [centsToString, String.length_append] at hl
  have hdot : String.length "." = 1 := rfl
  have hnil : String.length "" = 0 := rfl
  rw [hdot, hnil] at hl
  omega

/-- C9 (amended): a monetary value is rendered blank exactly when its
absolute value is below the binary64 float `0.005` (slightly above `1/200`,
so a value that rounds to exactly one cent can still be blanked); and the
`Total` row aggregates the per-lot gains unrounded within each instrument,
rounds once per instrument, and sums those rounded per-instrument values —
it is not a single rounding of the exact overall sum. -/
theorem claim_C9 (start : ℤ) (sts : List InstrState) (prs : List (ℚ × ℚ))
    (h : List.Forall₂ (fun st pr =>
      gainsWalk start (st.lots.length + 1) st.lots (some st.head) 0 0 = .ok pr) sts prs) :
    reportTotals start sts =
      .ok ((prs.map fun pr => roundCents pr.1).sum,
        (prs.map fun pr => roundCents pr.2).sum) ∧
    (∀ x : ℚ, cur_str x = "" ↔ |x| < floatOfPointZeroZeroFive) := by
  constructor
  · rw [reportTotals]
    have h2 := foldTotals_spec start sts prs h (0, 0)
    simpa using h2
  · intro x
    rw [cur_str]
    constructor
    · intro hx
      by_cases hlt : |x| < floatOfPointZeroZeroFive
      · exact hlt
      · rw [if_neg hlt] at hx
        exact absurd hx (centsToString_ne_empty _)
    · intro hlt
      rw [if_pos hlt]

set_option maxRecDepth 8000 in
/-- Witness for C9: a single one-lot instrument; the total is that
instrument's rounded gain. -/
theorem claim_C9_witness :
    gainsWalk 0 2 [⟨-400, 0, 1, some 10, some 2, none, none⟩] (some 0) 0 0 =
      .ok (2, 0) ∧
    reportTotals 0 [⟨[⟨-400, 0, 1, some 10, some 2, none, none⟩], 0, 0, ⟨1, 0⟩⟩] =
      .ok (([((2 : ℚ), (0 : ℚ))].map fun pr => roundCents pr.1).sum,
        ([((2 : ℚ), (0 : ℚ))].map fun pr => roundCents pr.2).sum) ∧
    (∀ x : ℚ, cur_str x = "" ↔ |x| < floatOfPointZeroZeroFive) := by
  have hwalk : gainsWalk 0 2 [⟨-400, 0, 1, some 10, some 2, none, none⟩] (some 0) 0 0 =
      .ok (2, 0) := by
    with_unfolding_all decide
  have h := claim_C9 0
    [⟨[⟨-400, 0, 1, some 10, some 2, none, none⟩], 0, 0, ⟨1, 0⟩⟩]
    [((2 : ℚ), (0 : ℚ))]
    (List.Forall₂.cons hwalk List.Forall₂.nil)
  exact ⟨hwalk, h.1, h.2⟩

set_option maxRecDepth 40000 in
/-- Counterexample to C9 as stated: the value `1/200 + 1/10^21` rounds to one
cent yet is rendered blank (the blank test compares against the float
`0.005`, whose exact value exceeds `1/200`), and two instruments with
per-lot gain `0.005` each give a `Total` of `0.00` while a single final
rounding of the exact sum `0.01` gives `0.01`. -/
theorem claim_C9_counterexample :
    cur_str (1 / 200 + 1 / 10 ^ 21) = "" ∧
    1 ≤ roundHalfEven (100 * |(1 / 200 + 1 / 10 ^ 21 : ℚ)|) ∧
    reportTotals 0
      [⟨[⟨-400, 0, 1, some 10, some (1 / 200), none, none⟩], 0, 0, ⟨1, 0⟩⟩,
        ⟨[⟨-400, 0, 1, some 10, some (1 / 200), none, none⟩], 0, 0, ⟨1, 0⟩⟩] =
      .ok (0, 0) ∧
    roundCents
      ((([⟨[⟨-400, 0, 1, some 10, some (1 / 200), none, none⟩], 0, 0, ⟨1, 0⟩⟩,
          ⟨[⟨-400, 0, 1, some 10, some (1 / 200), none, none⟩], 0, 0,
            ⟨1, 0⟩⟩] : List InstrState).map
        (fun st => ((gainsSpan 0 (chainRecs st.lots [0]).reverse).map longContrib).sum)).sum) =
      1 / 100 ∧
    (0 : ℚ) ≠ 1 / 100 := by
  refine ⟨?_, ?_, ?_, ?_, ?_⟩ <;> with_unfolding_all decide

/-- C10: after replaying any transaction sequence from the empty state, the
closed lots form a contiguous prefix of the chain (no open lot ever precedes
a closed lot), so the head-backward walk that stops at the first closed lot
covers every open lot: on the reversed chain, taking open lots while open is
the same as filtering for all open lots. -/
theorem claim_C10 (ops : List Op) (st : InstrState)
    (hrep : replay ops none = .ok (some st)) :
    ∃ chain,
      WF st.lots st.root st.head chain ∧
      closedBeforeOpen (chainRecs st.lots chain) ∧
      chain.reverse.takeWhile (fun k => !(getL st.lots k).sell_date.isSome) =
        chain.reverse.filter (fun k => !(getL st.lots k).sell_date.isSome) := by
  have hinv := replay_StInv ops none (some st) hrep trivial
  simp only [StInv] at hinv
  obtain ⟨chain, hwf, -, hcbo⟩ := hinv
  refine ⟨chain, hwf, hcbo, ?_⟩
  apply takeWhile_eq_filter_of_pairwise
  rw [List.pairwise_reverse]
  have hP : List.Pairwise
      (fun a b : ℕ =>
        (getL st.lots a).sell_date = none → (getL st.lots b).sell_date = none)
      chain := by
    have h2 := hcbo
    unfold closedBeforeOpen chainRecs at h2
    rw [List.pairwise_map] at h2
    apply h2.imp
    intro a b hab
    simpa using hab
  have hconv : ∀ k, ((!(getL st.lots k).sell_date.isSome) = true ↔
      (getL st.lots k).sell_date = none) := by
    intro k
    cases (getL st.lots k).sell_date <;> simp
  apply hP.imp
  intro a b hab hpa
  exact (hconv b).mpr (hab ((hconv a).mp hpa))

/-- Witness for C10: replay one acquisition; the single open lot is covered
by the backward open-span walk. -/
theorem claim_C10_witness :
    replay [Op.acquire 0 1 ⟨1, 0⟩] none =
      .ok (some ⟨[⟨0, 1, 1, none, none, none, none⟩], 0, 0, ⟨1, 0⟩⟩) ∧
    ∃ chain,
      WF [⟨0, 1, 1, none, none, none, none⟩] 0 0 chain ∧
      closedBeforeOpen (chainRecs [⟨0, 1, 1, none, none, none, none⟩] chain) ∧
      chain.reverse.takeWhile
          (fun k => !(getL [⟨0, 1, 1, none, none, none, none⟩] k).sell_date.isSome) =
        chain.reverse.filter
          (fun k => !(getL [⟨0, 1, 1, none, none, none, none⟩] k).sell_date.isSome) := by
  have hrep : replay [Op.acquire 0 1 ⟨1, 0⟩] none =
      .ok (some ⟨[⟨0, 1, 1, none, none, none, none⟩], 0, 0, ⟨1, 0⟩⟩) := by
    with_unfolding_all decide
  exact ⟨hrep, claim_C10 [Op.acquire 0 1 ⟨1, 0⟩] _ hrep⟩
